import Mathlib

/- Verification development for the oskr replication framework.

The definitions below are a shallow embedding of the C++ sources:
machine integers become `Nat` with explicit `% 2^w` at the points where
the C++ code performs a narrowing conversion or wrapping arithmetic,
`std::map` / hash maps become association lists, fatal `panic` calls and
undefined out-of-bounds accesses become the error results of `Except`. -/

namespace Oskr

/- Machine-integer moduli: `ViewNumber` is `uint8_t`, `RequestNumber` and
`ClientId` are `uint32_t`, `OpNumber` is `uint64_t`. -/

def U8 : Nat := 256

def U32 : Nat := 4294967296

def U64 : Nat := 18446744073709551616

/- `Log<>::block_size` from `core/Log.hpp`. -/
def blockSize : Nat := 50

/- Opaque byte buffer (`Data` in `core/Type.hpp`). -/
def Data : Type := List Nat

instance : DecidableEq Data := by
  unfold Data
  infer_instance

instance : Inhabited Data := ⟨([] : List Nat)⟩

/- Log entry, `Log<void>::Entry` in `core/Log.hpp`. -/
structure Entry where
  client_id : Nat
  request_number : Nat
  op : Data
  deriving DecidableEq

instance : Inhabited Entry := ⟨⟨0, 0, default⟩⟩

/- `Log<void>::ListPreset::Block`: a fixed array of `block_size` entries
plus an `int` count. The array is modelled as a list (length 50 for blocks
the replica itself builds); the count keeps the C++ `int` signedness. -/
structure Block where
  entry_buffer : List Entry
  n_entry : Int
  deriving DecidableEq

instance : Inhabited Block := ⟨⟨List.replicate blockSize default, 0⟩⟩

/- Association-list primitives standing for `std::map` / hash-map lookup
and `operator[]`-assignment. Keys stay unique when they start unique. -/

def lookA {α β : Type} [DecidableEq α] : List (α × β) → α → Option β
  | [], _ => none
  | (k, v) :: rest, a => if k = a then some v else lookA rest a

def setA {α β : Type} [DecidableEq α] : List (α × β) → α → β → List (α × β)
  | [], a, b => [(a, b)]
  | (k, v) :: rest, a, b =>
      if k = a then (a, b) :: rest else (k, v) :: setA rest a b

/- Error outcomes of an embedded computation: `panic` is a deliberate
fatal abort in the source, `oob` is an undefined out-of-bounds vector or
array access, `batchOob` is specifically the batch-buffer write in the VR
`Request` handler, `fuel` is exhaustion of the loop fuel given to the log
drain (shown unreachable under well-formedness). -/
inductive Err where
  | fatal
  | oob
  | batchOob
  | fuel
  deriving DecidableEq

/- Messages shared by `common/BasicClient.hpp`. Addresses are abstract
tokens, modelled as `Nat`. -/

structure RequestMessage where
  client_id : Nat
  request_number : Nat
  op : Data
  deriving DecidableEq

structure ReplyMessage where
  request_number : Nat
  result : Data
  view_number : Nat
  replica_id : Int
  deriving DecidableEq

/- ClientTable from `common/ClientTable.hpp`. -/

structure CRecord where
  remote : Option Nat
  request_number : Nat
  reply_message : Option ReplyMessage
  deriving DecidableEq

/- Result of `ClientTable::check` / the `Apply` closures: `proceed` is the
falsy `nullptr` (caller processes the request), `noop` is the truthy
do-nothing closure, `resend` is the closure that replays a reply. -/
inductive CheckRes where
  | proceed
  | noop
  | resend (remote : Nat) (reply : ReplyMessage)
  deriving DecidableEq

def CTable : Type := List (Nat × CRecord)

instance : DecidableEq CTable := by
  unfold CTable
  infer_instance

/- `ClientTable::check` (ClientTable.hpp lines 52-90). The record's remote
address is filled in only when absent; a request number more than one past
the recorded one is fatal (`% U32` reflects the `uint32_t` increment). -/
def ClientTable.check (t : CTable) (remote : Nat) (client_id : Nat)
    (request_number : Nat) : Except Err (CTable × CheckRes) :=
  match lookA t client_id with
  | none =>
      .ok (setA t client_id ⟨some remote, request_number, none⟩, .proceed)
  | some rec0 =>
      let rec1 := if rec0.remote = none then
        { rec0 with remote := some remote } else rec0
      if request_number < rec1.request_number then
        .ok (setA t client_id rec1, .noop)
      else if request_number = rec1.request_number then
        match rec1.reply_message with
        | none => .ok (setA t client_id rec1, .noop)
        | some rep => .ok (setA t client_id rec1, .resend remote rep)
      else if request_number ≠ (rec1.request_number + 1) % U32 then
        .error .fatal
      else
        .ok (setA t client_id
          { rec1 with request_number := request_number,
                      reply_message := none }, .proceed)

/- Two-argument `ClientTable::update` (relayed request, lines 92-113). -/
def ClientTable.update2 (t : CTable) (client_id : Nat)
    (request_number : Nat) : CTable :=
  match lookA t client_id with
  | none => setA t client_id ⟨none, request_number, none⟩
  | some rec0 =>
      if rec0.request_number ≥ request_number then t
      else setA t client_id
        { rec0 with request_number := request_number, reply_message := none }

/- Three-argument `ClientTable::update` (commit side, lines 115-151). -/
def ClientTable.update3 (t : CTable) (client_id : Nat)
    (request_number : Nat) (reply : ReplyMessage) : CTable × CheckRes :=
  match lookA t client_id with
  | none => (setA t client_id ⟨none, request_number, some reply⟩, .noop)
  | some rec0 =>
      if rec0.request_number > request_number then (t, .noop)
      else
        let rec1 := if rec0.request_number < request_number then
          { rec0 with request_number := request_number } else rec0
        let rec2 := { rec1 with reply_message := some reply }
        match rec2.remote with
        | none => (setA t client_id rec2, .noop)
        | some remote => (setA t client_id rec2, .resend remote reply)

/- Quorum set from `common/Quorum.hpp`, keyed by `K`, storing one message
per replica id. The outer and inner `std::map`s are association lists;
`messagesAt` is `operator[]`, which default-constructs a missing inner
map (a state change even on lookup). -/
structure Quorum (K M : Type) where
  numRequired : Nat
  messages : List (K × List (Int × M))

def Quorum.messagesAt {K M : Type} [DecidableEq K] (q : Quorum K M)
    (vs : K) : Quorum K M × List (Int × M) :=
  match lookA q.messages vs with
  | some inner => (q, inner)
  | none => ({ q with messages := setA q.messages vs [] }, [])

def Quorum.checkForQuorum {K M : Type} [DecidableEq K] (q : Quorum K M)
    (vs : K) : Quorum K M × Option (List (Int × M)) :=
  let p := q.messagesAt vs
  (p.1, if p.2.length ≥ q.numRequired then some p.2 else none)

def Quorum.addAndCheckForQuorum {K M : Type} [DecidableEq K]
    (q : Quorum K M) (vs : K) (replica_id : Int) (msg : M) :
    Quorum K M × Option (List (Int × M)) :=
  let p := q.messagesAt vs
  let inner := setA p.2 replica_id msg
  let q2 := { p.1 with messages := setA p.1.messages vs inner }
  (q2, if inner.length ≥ q.numRequired then some inner else none)

def Quorum.clearAll {K M : Type} (q : Quorum K M) : Quorum K M :=
  { q with messages := [] }

/- ListLog from `common/ListLog.hpp`: flattened blocks over a flat entry
vector, with a start index and the executed watermark. The application
behind the log is threaded explicitly: its state has type `σ` and its
`commit` method is a function `σ → Data → σ × Data`. -/

structure FlattenBlock where
  offset : Nat
  n_entry : Int
  committed : Bool
  deriving DecidableEq

instance : Inhabited FlattenBlock := ⟨⟨0, 0, false⟩⟩

structure LLog where
  block_list : List FlattenBlock
  entry_list : List Entry
  start_number : Nat
  commit_number : Nat
  enable_upcall : Bool
  deriving DecidableEq

/- `ListLog::blockOffset`: fatal when the start number is unset; otherwise
the `size_t` subtraction `op_number - start_number`, which wraps modulo
2^64 when the index is below the start. -/
def LLog.blockOffsetE (l : LLog) (op_number : Nat) : Option Nat :=
  if l.start_number = 0 then none
  else some ((op_number + U64 - l.start_number) % U64)

/- `ListLog::prepare`: set the start on first use (the `uint64_t`
`start_number - 1` wraps when the first index is 0), require the index to
be the append position, then push the flattened block and copy
`n_entry` entries out of the block's buffer (an out-of-range count would
read past the C++ array: `oob`). -/
def LLog.prepare (l : LLog) (index : Nat) (block : Block) :
    Except Err LLog :=
  let l1 := if l.start_number = 0 then
    { l with start_number := index, commit_number := (index + U64 - 1) % U64 }
    else l
  match l1.blockOffsetE index with
  | none => .error .fatal
  | some off =>
      if off ≠ l1.block_list.length then .error .fatal
      else if 0 ≤ block.n_entry ∧
          block.n_entry.toNat ≤ block.entry_buffer.length then
        .ok { l1 with
          block_list := l1.block_list ++
            [⟨l1.entry_list.length, block.n_entry, false⟩],
          entry_list := l1.entry_list ++
            block.entry_buffer.take block.n_entry.toNat }
      else .error .oob

/- One reply-callback invocation: `(client_id, request_number, result)`. -/
def CbEvent : Type := Nat × Nat × Data

instance : DecidableEq CbEvent := by
  unfold CbEvent
  infer_instance

section App

variable {σ : Type} (appCommit : σ → Data → σ × Data)

/- The entry-execution loop inside `ListLog::makeUpcall`: run `n` entries
of `entry_list` starting at position `base` through the application, in
order, collecting one callback event per entry. A read past the end of
the entry vector is undefined behavior (`none`). -/
def execEntries (el : List Entry) : σ → Nat → Nat → Option (σ × List CbEvent)
  | a, _, 0 => some (a, [])
  | a, base, n + 1 =>
      match el.get? base with
      | none => none
      | some e =>
          let r := appCommit a e.op
          match execEntries el r.1 (base + 1) n with
          | none => none
          | some (a2, evs) =>
              some (a2, (e.client_id, e.request_number, r.2) :: evs)

/- The drain loop of `ListLog::makeUpcall` (lines 99-111): while the block
after the watermark exists and is committed, advance the watermark
(`uint64_t` increment) and execute the block's entries. The loop is
written with fuel; under well-formedness the fuel never runs out. -/
def makeUpcallF : Nat → LLog → σ → Except Err (LLog × σ × List CbEvent)
  | 0, _, _ => .error .fuel
  | fuel + 1, l, a =>
      match l.blockOffsetE ((l.commit_number + 1) % U64) with
      | none => .error .fatal
      | some off =>
          if off < l.block_list.length ∧
              (l.block_list.getD off default).committed then
            let l1 := { l with commit_number := (l.commit_number + 1) % U64 }
            let blk := l.block_list.getD off default
            match execEntries appCommit l.entry_list a blk.offset
                blk.n_entry.toNat with
            | none => .error .oob
            | some (a1, evs) =>
                match makeUpcallF fuel l1 a1 with
                | .error e => .error e
                | .ok (l2, a2, evs2) => .ok (l2, a2, evs ++ evs2)
          else .ok (l, a, [])

/- The marking step of `ListLog::commit`:
`block_list[blockOffset(index)].committed = true`. -/
def LLog.mark (l : LLog) (off : Nat) : LLog :=
  { l with
    block_list := l.block_list.set off
      ({ l.block_list.getD off default with committed := true }) }

/- `ListLog::commit` (lines 55-66): fatal unless the index maps to a
prepared block; mark that block committed; then, if upcalls are enabled,
drain. -/
def LLog.commit (l : LLog) (a : σ) (index : Nat) :
    Except Err (LLog × σ × List CbEvent) :=
  match l.blockOffsetE index with
  | none => .error .fatal
  | some off =>
      if off ≥ l.block_list.length then .error .fatal
      else
        let l1 := l.mark off
        if l1.enable_upcall then
          makeUpcallF appCommit (l1.block_list.length + 1) l1 a
        else .ok (l1, a, [])

end App

/- `ListLog::rollbackTo` (lines 68-82): nothing to do before the first
prepare; clear everything when rolling back before the start; otherwise
read the flattened block at the unchecked offset (undefined behavior when
past the end) and truncate both vectors. -/
def LLog.rollbackTo (l : LLog) (index : Nat) : Except Err LLog :=
  if l.start_number = 0 then .ok l
  else if index < l.start_number then
    .ok { l with block_list := [], entry_list := [] }
  else
    match l.blockOffsetE index with
    | none => .error .fatal
    | some off =>
        match l.block_list.get? off with
        | none => .error .oob
        | some fb =>
            if fb.offset ≤ l.entry_list.length then
              .ok { l with block_list := l.block_list.take off,
                           entry_list := l.entry_list.take fb.offset }
            else .error .oob

/- Total number of entries covered by a flattened block list. -/
def sumEntries (bl : List FlattenBlock) : Nat :=
  bl.foldr (fun b acc => b.n_entry.toNat + acc) 0

/- Well-formedness of a `ListLog` state, as established by `prepare`:
the start is set, indices fit in `uint64_t`, each flattened block's
offset is the entry count of the blocks before it with a non-negative
entry count, the entry vector is exactly the covered entries, and the
executed watermark lies between `start - 1` and the last prepared
index. -/
def LWF (l : LLog) : Prop :=
  1 ≤ l.start_number ∧
  l.start_number + l.block_list.length ≤ U64 ∧
  (∀ k, k < l.block_list.length →
    (l.block_list.getD k default).offset = sumEntries (l.block_list.take k) ∧
    0 ≤ (l.block_list.getD k default).n_entry) ∧
  l.entry_list.length = sumEntries l.block_list ∧
  l.start_number - 1 ≤ l.commit_number ∧
  l.commit_number + 1 ≤ l.start_number + l.block_list.length

instance (l : LLog) : Decidable (LWF l) := by
  unfold LWF
  infer_instance

/- The index of a block that `ListLog` currently stores: exactly the
indices whose `blockOffset` passes the bound checks. -/
def LPrepared (l : LLog) (index : Nat) : Prop :=
  l.start_number ≠ 0 ∧ l.start_number ≤ index ∧
  index < l.start_number + l.block_list.length

instance (l : LLog) (index : Nat) : Decidable (LPrepared l index) := by
  unfold LPrepared
  infer_instance

/- VR protocol messages, `replication/vr/Message.hpp`. The
`latest_normal` field of `DoViewChangeMessage` is never assigned by
`Replica.hpp`; the replica writes a `replica_id` into the message, which
`Replica.hpp` also reads back out of received messages. -/

structure PrepareMessage where
  view_number : Nat
  op_number : Nat
  block : Block
  commit_number : Nat
  deriving DecidableEq

structure PrepareOkMessage where
  view_number : Nat
  op_number : Nat
  replica_id : Int
  deriving DecidableEq

structure CommitMessage where
  view_number : Nat
  commit_number : Nat
  deriving DecidableEq

structure StartViewChangeMessage where
  view_number : Nat
  replica_id : Int
  deriving DecidableEq

structure DoViewChangeMessage where
  view_number : Nat
  latest_normal : Nat
  op_number : Nat
  commit_number : Nat
  replica_id : Int
  deriving DecidableEq

structure StartViewMessage where
  view_number : Nat
  op_number : Nat
  commit_number : Nat
  deriving DecidableEq

/- The `ReplicaMessage` variant. -/
inductive RMsg where
  | request (m : RequestMessage)
  | prepare (m : PrepareMessage)
  | prepareOk (m : PrepareOkMessage)
  | commit (m : CommitMessage)
  | startViewChange (m : StartViewChangeMessage)
  | doViewChange (m : DoViewChangeMessage)
  | startView (m : StartViewMessage)
  deriving DecidableEq

inductive Status where
  | normal
  | viewChange
  deriving DecidableEq

/- Observable actions of one replica event: transport sends and the
`log.commit` calls issued by `commitUpTo`. -/
inductive Effect where
  | sendToAll (m : RMsg)
  | sendToReplica (rid : Int) (m : RMsg)
  | sendAddr (addr : Nat) (m : ReplyMessage)
  | logCommit (index : Nat)
  deriving DecidableEq

/- Projection of an effect trace onto the indices of its `log.commit`
calls. -/
def effLogIdx : Effect → Option Nat
  | .logCommit i => some i
  | _ => none

/- State of `vr::Replica` plus the pieces of its environment it owns in
this model: the referenced `ListLog`, the application state behind it,
and the two config fields the handlers read. Timers carry no state that
the claims depend on; timer callbacks are separate events. -/
structure RState (σ : Type) where
  n_fault : Nat
  n_replica : Nat
  replica_id : Int
  batch_size : Int
  status : Status
  view_number : Nat
  op_number : Nat
  commit_number : Nat
  batch : Block
  client_table : CTable
  log : LLog
  app : σ
  prepare_ok_set : Quorum Nat PrepareOkMessage
  start_view_change_set : Quorum Nat StartViewChangeMessage
  do_view_change_set : Quorum Nat DoViewChangeMessage

/- `Config::primaryId` for the replica's current view:
`view_number % n_replica()` in `int` arithmetic. -/
def RState.primaryId {σ : Type} (s : RState σ) : Int :=
  ((s.view_number % s.n_replica : Nat) : Int)

def RState.isPrimary {σ : Type} (s : RState σ) : Prop :=
  s.primaryId = s.replica_id

instance {σ : Type} (s : RState σ) : Decidable s.isPrimary := by
  unfold RState.isPrimary
  infer_instance

/- `Replica::sendReply`: only the primary talks to clients. -/
def sendReply {σ : Type} (s : RState σ) (remote : Nat)
    (reply : ReplyMessage) : List Effect :=
  if s.isPrimary then [.sendAddr remote reply] else []

/- Index sequence of the `commitUpTo` loop
`for (i = commit_number + 1; i <= op_number; i += 1)`: the initial
`uint64_t` increment may wrap; within the loop no wrap can occur before
the bound check stops it. -/
def commitIndices (c target : Nat) : List Nat :=
  List.range' ((c + 1) % U64) (target + 1 - (c + 1) % U64)

section Replica

variable {σ : Type} (appCommit : σ → Data → σ × Data)

/- The reply callback passed to `log.commit` by `Replica::commitUpTo`:
build a `ReplyMessage` (its `replica_id` field is left uninitialized by
the source; it is fixed to 0 here), route it through the client table,
and let the returned closure call `sendReply`. -/
def processCb (view : Nat) (primary : Bool) :
    CTable → CbEvent → CTable × List Effect :=
  fun t ev =>
    let reply : ReplyMessage :=
      ⟨ev.2.1, ev.2.2, view, 0⟩
    let p := ClientTable.update3 t ev.1 ev.2.1 reply
    match p.2 with
    | .resend remote rep =>
        (p.1, if primary then [.sendAddr remote rep] else [])
    | _ => (p.1, [])

def processCbs (view : Nat) (primary : Bool) :
    CTable → List CbEvent → CTable × List Effect
  | t, [] => (t, [])
  | t, ev :: rest =>
      let p := processCb view primary t ev
      let q := processCbs view primary p.1 rest
      (q.1, p.2 ++ q.2)

/- The body of `Replica::commitUpTo` ranging over a list of indices. -/
def cuLoop : RState σ → List Nat → Except Err (RState σ × List Effect)
  | s, [] => .ok (s, [])
  | s, i :: rest =>
      match LLog.commit appCommit s.log s.app i with
      | .error e => .error e
      | .ok (l1, a1, cbs) =>
          let p := processCbs s.view_number (decide s.isPrimary)
            s.client_table cbs
          let s1 := { s with log := l1, app := a1, client_table := p.1 }
          match cuLoop s1 rest with
          | .error e => .error e
          | .ok (s2, effs) =>
              .ok (s2, .logCommit i :: p.2 ++ effs)

/- `Replica::commitUpTo` (Replica.hpp lines 257-273). -/
def commitUpTo (s : RState σ) (target : Nat) :
    Except Err (RState σ × List Effect) :=
  match cuLoop appCommit s (commitIndices s.commit_number target) with
  | .error e => .error e
  | .ok (s1, effs) => .ok ({ s1 with commit_number := target }, effs)

/- `Replica::closeBatch` (lines 162-184): unreachable guard, `uint64_t`
op-number increment, prepare the batch into the log, broadcast a
`Prepare` carrying the still-full batch, reset the batch, then commit
immediately if the `PrepareOk` quorum already arrived (note that the
quorum lookup itself materializes an empty inner map). -/
def closeBatch (s : RState σ) : Except Err (RState σ × List Effect) :=
  if ¬(s.status = .normal ∧ s.isPrimary) then .error .fatal
  else
    let op1 := (s.op_number + 1) % U64
    match LLog.prepare s.log op1 s.batch with
    | .error e => .error e
    | .ok l1 =>
        let prep : PrepareMessage :=
          ⟨s.view_number, op1, s.batch, s.commit_number⟩
        let s1 := { s with
          op_number := op1
          log := l1
          batch := { s.batch with n_entry := 0 } }
        let chk := s1.prepare_ok_set.checkForQuorum op1
        let s2 := { s1 with prepare_ok_set := chk.1 }
        match chk.2 with
        | none => .ok (s2, [.sendToAll (.prepare prep)])
        | some _ =>
            match commitUpTo appCommit s2 op1 with
            | .error e => .error e
            | .ok (s3, effs) =>
                .ok (s3, .sendToAll (.prepare prep) :: effs)

/- `Replica::handle(RequestMessage)` (lines 138-160). The batch-buffer
write `batch.entry_buffer[batch.n_entry] = ...` is an array store into a
50-slot array: an index outside `[0, 50)` is the undefined behavior
`batchOob`. -/
def handleRequest (s : RState σ) (remote : Nat) (m : RequestMessage) :
    Except Err (RState σ × List Effect) :=
  if s.status ≠ .normal then .ok (s, [])
  else
    match ClientTable.check s.client_table remote m.client_id
        m.request_number with
    | .error e => .error e
    | .ok (t1, res) =>
        let s1 := { s with client_table := t1 }
        match res with
        | .noop => .ok (s1, [])
        | .resend r rep => .ok (s1, sendReply s1 r rep)
        | .proceed =>
            if s1.isPrimary then
              if 0 ≤ s1.batch.n_entry ∧ s1.batch.n_entry.toNat < blockSize
              then
                let b1 : Block :=
                  ⟨s1.batch.entry_buffer.set s1.batch.n_entry.toNat
                    ⟨m.client_id, m.request_number, m.op⟩,
                   s1.batch.n_entry + 1⟩
                let s2 := { s1 with batch := b1 }
                if s2.batch.n_entry ≥ s2.batch_size then
                  closeBatch appCommit s2
                else .ok (s2, [])
              else .error .batchOob
            else .ok (s1, [])

/- Reading the first `n_entry` entries out of a received block, as the
backup `Prepare` handler's loop does; a count exceeding the buffer is an
out-of-bounds read. -/
def readEntries (b : Block) : Option (List Entry) :=
  if 0 ≤ b.n_entry ∧ b.n_entry.toNat ≤ b.entry_buffer.length then
    some (b.entry_buffer.take b.n_entry.toNat)
  else none

/- `Replica::handle(PrepareMessage)` (lines 186-231): stale views are
dropped, a strictly higher view is the unimplemented `rpanic("todo")`
path, the primary receiving its own `Prepare` is fatal, an old op number
is dropped, a gap is fatal, and otherwise the block is prepared, the
client table updated per entry, a `PrepareOk` sent to the primary, and
the piggybacked commit number applied. -/
def handlePrepare (s : RState σ) (m : PrepareMessage) :
    Except Err (RState σ × List Effect) :=
  if s.status ≠ .normal ∨ s.view_number > m.view_number then .ok (s, [])
  else if s.view_number < m.view_number then .error .fatal
  else if s.isPrimary then .error .fatal
  else if m.op_number ≤ s.op_number then .ok (s, [])
  else if m.op_number ≠ (s.op_number + 1) % U64 then .error .fatal
  else
    let op1 := (s.op_number + 1) % U64
    match LLog.prepare s.log op1 m.block with
    | .error e => .error e
    | .ok l1 =>
        match readEntries m.block with
        | none => .error .oob
        | some entries =>
            let t1 := entries.foldl
              (fun t e => ClientTable.update2 t e.client_id e.request_number)
              s.client_table
            let s1 := { s with
              op_number := op1
              log := l1
              client_table := t1 }
            let pok : PrepareOkMessage :=
              ⟨s1.view_number, op1, s1.replica_id⟩
            let eff0 : Effect := .sendToReplica s1.primaryId (.prepareOk pok)
            if m.commit_number > s1.commit_number then
              match commitUpTo appCommit s1 m.commit_number with
              | .error e => .error e
              | .ok (s2, effs) => .ok (s2, eff0 :: effs)
            else .ok (s1, [eff0])

/- `Replica::handle(PrepareOkMessage)` (lines 233-255). -/
def handlePrepareOk (s : RState σ) (m : PrepareOkMessage) :
    Except Err (RState σ × List Effect) :=
  if s.status ≠ .normal ∨ m.view_number < s.view_number then .ok (s, [])
  else if m.view_number > s.view_number then .error .fatal
  else if ¬s.isPrimary then .error .fatal
  else if m.op_number ≤ s.commit_number then .ok (s, [])
  else
    let p := s.prepare_ok_set.addAndCheckForQuorum m.op_number
      m.replica_id m
    let s1 := { s with prepare_ok_set := p.1 }
    match p.2 with
    | some _ => commitUpTo appCommit s1 m.op_number
    | none => .ok (s1, [])

/- `Replica::handle(CommitMessage)` (lines 275-292). -/
def handleCommit (s : RState σ) (m : CommitMessage) :
    Except Err (RState σ × List Effect) :=
  if s.status ≠ .normal ∨ m.view_number < s.view_number then .ok (s, [])
  else if m.view_number > s.view_number then .error .fatal
  else if m.commit_number > s.commit_number then
    commitUpTo appCommit s m.commit_number
  else .ok (s, [])

/- `Replica::startViewChange` (lines 294-311): fatal on the primary
(checked against the pre-update view), then switch to `ViewChange` at the
given view and broadcast. -/
def startViewChange (s : RState σ) (start_view : Nat) :
    Except Err (RState σ × List Effect) :=
  if s.isPrimary then .error .fatal
  else
    let s1 := { s with status := .viewChange, view_number := start_view }
    let svc : StartViewChangeMessage := ⟨s1.view_number, s1.replica_id⟩
    .ok (s1, [.sendToAll (.startViewChange svc)])

/- `Replica::enterView` (lines 388-411). -/
def enterView (s : RState σ) (sv : StartViewMessage) :
    Except Err (RState σ × List Effect) :=
  let s1 := { s with
    view_number := sv.view_number
    status := .normal
    batch := { s.batch with n_entry := 0 }
    prepare_ok_set := s.prepare_ok_set.clearAll }
  if s1.op_number < sv.op_number then .error .fatal
  else if sv.commit_number > s1.commit_number then
    commitUpTo appCommit s1 sv.commit_number
  else .ok (s1, [])

/- `Replica::startView` (lines 359-386): give up silently when a quorum
member is ahead of the new primary's log; `max_commit` is computed by the
source but never used afterwards. -/
def startView (s : RState σ) (quorum : List (Int × DoViewChangeMessage)) :
    Except Err (RState σ × List Effect) :=
  if ¬s.isPrimary then .error .fatal
  else if quorum.any (fun p => p.2.op_number > s.op_number) then .ok (s, [])
  else
    let sv : StartViewMessage :=
      ⟨s.view_number, s.op_number, s.commit_number⟩
    match enterView appCommit s sv with
    | .error e => .error e
    | .ok (s1, effs) => .ok (s1, .sendToAll (.startView sv) :: effs)

/- `Replica::sendDoViewChange` (lines 451-473). `latest_normal` is left
unassigned by the source; it is fixed to 0 here. -/
def sendDoViewChange (s : RState σ) :
    Except Err (RState σ × List Effect) :=
  let dvc : DoViewChangeMessage :=
    ⟨s.view_number, 0, s.op_number, s.commit_number, s.replica_id⟩
  if ¬s.isPrimary then
    .ok (s, [.sendToReplica s.primaryId (.doViewChange dvc)])
  else
    let p := s.do_view_change_set.addAndCheckForQuorum s.view_number
      s.replica_id dvc
    let s1 := { s with do_view_change_set := p.1 }
    match p.2 with
    | some q => startView appCommit s1 q
    | none => .ok (s1, [])

/- `Replica::handle(StartViewChangeMessage)` (lines 313-331). -/
def handleStartViewChange (s : RState σ) (m : StartViewChangeMessage) :
    Except Err (RState σ × List Effect) :=
  if m.view_number < s.view_number then .ok (s, [])
  else
    let step1 : Except Err (RState σ × List Effect) :=
      if m.view_number > s.view_number then startViewChange s m.view_number
      else .ok (s, [])
    match step1 with
    | .error e => .error e
    | .ok (s1, effs1) =>
        let p := s1.start_view_change_set.addAndCheckForQuorum
          s1.view_number m.replica_id m
        let s2 := { s1 with start_view_change_set := p.1 }
        match p.2 with
        | some _ =>
            match sendDoViewChange appCommit s2 with
            | .error e => .error e
            | .ok (s3, effs2) => .ok (s3, effs1 ++ effs2)
        | none => .ok (s2, effs1)

/- `Replica::handle(DoViewChangeMessage)` (lines 333-357). -/
def handleDoViewChange (s : RState σ) (m : DoViewChangeMessage) :
    Except Err (RState σ × List Effect) :=
  if m.view_number < s.view_number then .ok (s, [])
  else
    let step1 : Except Err (RState σ × List Effect) :=
      if m.view_number > s.view_number then startViewChange s m.view_number
      else .ok (s, [])
    match step1 with
    | .error e => .error e
    | .ok (s1, effs1) =>
        if ¬s1.isPrimary then .error .fatal
        else if s1.status ≠ .viewChange then .ok (s1, effs1)
        else
          let p := s1.do_view_change_set.addAndCheckForQuorum
            s1.view_number m.replica_id m
          let s2 := { s1 with do_view_change_set := p.1 }
          match p.2 with
          | some q =>
              match startView appCommit s2 q with
              | .error e => .error e
              | .ok (s3, effs2) => .ok (s3, effs1 ++ effs2)
          | none => .ok (s2, effs1)

/- `Replica::handle(StartViewMessage)` (lines 413-426). -/
def handleStartView (s : RState σ) (m : StartViewMessage) :
    Except Err (RState σ × List Effect) :=
  if m.view_number < s.view_number then .ok (s, [])
  else if m.view_number = s.view_number ∧ s.status ≠ .viewChange then
    .ok (s, [])
  else enterView appCommit s m

/- `Replica::sendCommit` (lines 438-449), the idle-commit timer body. -/
def sendCommit (s : RState σ) : Except Err (RState σ × List Effect) :=
  if ¬s.isPrimary then .error .fatal
  else
    let c : CommitMessage := ⟨s.view_number, s.commit_number⟩
    .ok (s, [.sendToAll (.commit c)])

/- One external event at a VR replica: a delivered message or one of the
two timer callbacks. -/
inductive REvent where
  | request (remote : Nat) (m : RequestMessage)
  | prepare (m : PrepareMessage)
  | prepareOk (m : PrepareOkMessage)
  | commit (m : CommitMessage)
  | startViewChange (m : StartViewChangeMessage)
  | doViewChange (m : DoViewChangeMessage)
  | startView (m : StartViewMessage)
  | idleCommitTimeout
  | viewChangeTimeout
  deriving DecidableEq

/- Dispatch of `Replica::receiveMessage` plus the two timer closures from
the constructor. The view-change timeout calls
`startViewChange(view_number + 1)`; the argument is an `int` sum
converted back to the `uint8_t` `ViewNumber` parameter, hence `% U8`. -/
def step (s : RState σ) : REvent → Except Err (RState σ × List Effect)
  | .request remote m => handleRequest appCommit s remote m
  | .prepare m => handlePrepare appCommit s m
  | .prepareOk m => handlePrepareOk appCommit s m
  | .commit m => handleCommit appCommit s m
  | .startViewChange m => handleStartViewChange appCommit s m
  | .doViewChange m => handleDoViewChange appCommit s m
  | .startView m => handleStartView appCommit s m
  | .idleCommitTimeout => sendCommit s
  | .viewChangeTimeout => startViewChange s ((s.view_number + 1) % U8)

/- The constructor `Replica::Replica` (lines 35-70): the only guard is
`batch_size > block_size`; the initial state is `Normal` at view 0 with
an empty 50-slot batch, and the quorum thresholds are `n_fault`,
`n_fault` and `n_fault + 1`. -/
def mkReplica (n_fault n_replica : Nat) (replica_id : Int)
    (batch_size : Int) (l : LLog) (a : σ) : Except Err (RState σ) :=
  if batch_size > (blockSize : Int) then .error .fatal
  else .ok
    { n_fault := n_fault
      n_replica := n_replica
      replica_id := replica_id
      batch_size := batch_size
      status := .normal
      view_number := 0
      op_number := 0
      commit_number := 0
      batch := ⟨List.replicate blockSize default, 0⟩
      client_table := []
      log := l
      app := a
      prepare_ok_set := ⟨n_fault, []⟩
      start_view_change_set := ⟨n_fault, []⟩
      do_view_change_set := ⟨n_fault + 1, []⟩ }

end Replica

/- BasicClient from `common/BasicClient.hpp`. The invoke callback is an
opaque token; the send strategy and replica count are the compile-time
`ClientSetting` and runtime config. -/

inductive Strategy where
  | unspecified
  | sendAll
  | primaryFirst
  deriving DecidableEq

structure BCPending where
  request_number : Nat
  op : Data
  result_table : List (Data × List Int)
  callback : Nat
  deriving DecidableEq

structure BCState where
  client_id : Nat
  request_number : Nat
  view_number : Nat
  pending : Option BCPending
  deriving DecidableEq

/- Client-side observable actions: the sends of `sendRequest` and the
scheduling of its resend timer. -/
inductive CEffect where
  | sendToReplica (rid : Int) (m : RequestMessage)
  | sendToAll (m : RequestMessage)
  | spawnResend
  deriving DecidableEq

/- `BasicClient::sendRequest` (lines 141-182): build the request from the
pending slot (dereferencing an empty optional would be undefined), send
per strategy — `primary_first` goes to `primaryId(view_number)` unless
resending — and spawn the resend timer. -/
def sendRequest (strategy : Strategy) (n_replica : Nat) (s : BCState)
    (resend : Bool) : Except Err (List CEffect) :=
  match s.pending with
  | none => .error .oob
  | some p =>
      let req : RequestMessage := ⟨s.client_id, p.request_number, p.op⟩
      match strategy with
      | .sendAll => .ok [.sendToAll req, .spawnResend]
      | .primaryFirst =>
          if resend then .ok [.sendToAll req, .spawnResend]
          else .ok [.sendToReplica ((s.view_number % n_replica : Nat) : Int)
            req, .spawnResend]
      | .unspecified => .error .fatal

/- `BasicClient::invoke` (lines 128-139): fatal while a request is
pending; otherwise the `uint32_t` request number is incremented, the
pending slot filled, and `sendRequest(false)` runs. -/
def BasicClient.invoke (strategy : Strategy) (n_replica : Nat)
    (s : BCState) (op : Data) (callback : Nat) :
    Except Err (BCState × List CEffect) :=
  match s.pending with
  | some _ => .error .fatal
  | none =>
      let rn := (s.request_number + 1) % U32
      let s1 := { s with
        request_number := rn
        pending := some ⟨rn, op, [], callback⟩ }
      match sendRequest strategy n_replica s1 false with
      | .error e => .error e
      | .ok effs => .ok (s1, effs)

/- The batch invariant of claim C9: the entry count sits inside the
batch, whose size fits the block. -/
def batchInv {σ : Type} (s : RState σ) : Prop :=
  0 ≤ s.batch.n_entry ∧ s.batch.n_entry < s.batch_size ∧
  s.batch_size ≤ (blockSize : Int)

instance {σ : Type} (s : RState σ) : Decidable (batchInv s) := by
  unfold batchInv
  infer_instance

/- A trivial application (state `Unit`, echoing the op) used to
instantiate the replica model at concrete inputs. -/
def idApp : Unit → Data → Unit × Data := fun a d => (a, d)

/- A freshly constructed backup: replica 1 out of 3, `n_fault` 1,
batch size 1, view 0, `Normal` status, empty log. -/
def freshBackup : RState Unit :=
  { n_fault := 1
    n_replica := 3
    replica_id := 1
    batch_size := 1
    status := .normal
    view_number := 0
    op_number := 0
    commit_number := 0
    batch := ⟨List.replicate blockSize default, 0⟩
    client_table := []
    log := ⟨[], [], 0, 0, true⟩
    app := ()
    prepare_ok_set := ⟨1, []⟩
    start_view_change_set := ⟨1, []⟩
    do_view_change_set := ⟨2, []⟩ }

/- Number of consecutive committed blocks from offset `o` on. -/
def streakFrom (bl : List FlattenBlock) (o : Nat) : Nat :=
  ((bl.drop o).takeWhile (fun b => b.committed)).length

section DrainSpec

variable {σ : Type} (appCommit : σ → Data → σ × Data)

/- Reference execution of the `n` entries at positions `base ..` of the
entry vector, stated from the spec text: each entry's op goes to
`app.commit` in log order and yields one callback event carrying the
entry's client id, request number and the application's reply. -/
def blockEvents (el : List Entry) : σ → Nat → Nat → σ × List CbEvent
  | a, _, 0 => (a, [])
  | a, base, n + 1 =>
      let e := el.getD base default
      let r := appCommit a e.op
      let p := blockEvents el r.1 (base + 1) n
      (p.1, (e.client_id, e.request_number, r.2) :: p.2)

/- Reference drain over a list of newly executed block indices: each
block's entries are executed in log order. -/
def drainExec (bl : List FlattenBlock) (el : List Entry) (start : Nat) :
    σ → List Nat → σ × List CbEvent
  | a, [] => (a, [])
  | a, i :: rest =>
      let blk := bl.getD (i - start) default
      let p := blockEvents appCommit el a blk.offset blk.n_entry.toNat
      let q := drainExec bl el start p.1 rest
      (q.1, p.2 ++ q.2)

end DrainSpec

/- A primary with one uncommitted prepared block at index 1: replica 0
out of 3, `n_fault` 1, view 0, `Normal`, commit number 0. -/
def primaryS : RState Unit :=
  { n_fault := 1
    n_replica := 3
    replica_id := 0
    batch_size := 1
    status := .normal
    view_number := 0
    op_number := 1
    commit_number := 0
    batch := ⟨List.replicate blockSize default, 0⟩
    client_table := []
    log := ⟨[⟨0, 1, false⟩], [⟨7, 1, [9]⟩], 1, 0, true⟩
    app := ()
    prepare_ok_set := ⟨1, []⟩
    start_view_change_set := ⟨1, []⟩
    do_view_change_set := ⟨2, []⟩ }

/- `freshBackup` with batch size 0: the constructor accepts it, yet the
batch invariant fails at the very beginning. -/
def zeroBatchReplica : RState Unit := { freshBackup with batch_size := 0 }

/- `freshBackup` at the largest `uint8_t` view. -/
def wrapBackup : RState Unit := { freshBackup with view_number := 255 }

/- Helper lemmas about the association-list primitives. -/

theorem lookA_setA_self {α β : Type} [DecidableEq α] (l : List (α × β))
    (a : α) (b : β) : lookA (setA l a b) a = some b := by
  induction l with
  | nil => simp [setA, lookA]
  | cons hd tl ih =>
      obtain ⟨k, v⟩ := hd
      by_cases h : k = a
      · simp [setA, h, lookA]
      · simp [setA, h, lookA, ih]

theorem setA_length_of_mem {α β : Type} [DecidableEq α]
    (l : List (α × β)) (a : α) (b : β) (h : (lookA l a).isSome) :
    (setA l a b).length = l.length := by
  induction l with
  | nil => simp [lookA] at h
  | cons hd tl ih =>
      obtain ⟨k, v⟩ := hd
      by_cases hh : k = a
      · simp [setA, hh]
      · simp only [lookA, hh, if_false, if_neg, not_false_iff] at h
        simp only [setA, hh, if_false, if_neg, not_false_iff,
          List.length_cons]
        rw [ih h]

theorem setA_keys_of_mem {α β : Type} [DecidableEq α]
    (l : List (α × β)) (a : α) (b : β) (h : (lookA l a).isSome) :
    (setA l a b).map Prod.fst = l.map Prod.fst := by
  induction l with
  | nil => simp [lookA] at h
  | cons hd tl ih =>
      obtain ⟨k, v⟩ := hd
      by_cases hh : k = a
      · simp [setA, hh]
      · simp only [lookA, hh, if_false, if_neg, not_false_iff] at h
        simp only [setA, hh, if_false, if_neg, not_false_iff, List.map_cons]
        rw [ih h]

theorem setA_keys_of_not_mem {α β : Type} [DecidableEq α]
    (l : List (α × β)) (a : α) (b : β) (h : lookA l a = none) :
    (setA l a b).map Prod.fst = l.map Prod.fst ++ [a] := by
  induction l with
  | nil => simp [setA]
  | cons hd tl ih =>
      obtain ⟨k, v⟩ := hd
      by_cases hh : k = a
      · simp [lookA, hh] at h
      · simp only [lookA, hh, if_false, if_neg, not_false_iff] at h
        simp only [setA, hh, if_false, if_neg, not_false_iff, List.map_cons,
          List.cons_append, List.cons.injEq, true_and]
        exact ih h

theorem lookA_isSome_of_mem {α β : Type} [DecidableEq α]
    (l : List (α × β)) (p : α × β) (hp : p ∈ l) :
    (lookA l p.1).isSome := by
  induction l with
  | nil => simp at hp
  | cons hd tl ih =>
      obtain ⟨k, v⟩ := hd
      rcases List.mem_cons.mp hp with hp1 | hp1
      · subst hp1; simp [lookA]
      · by_cases hh : k = p.1
        · simp [lookA, hh]
        · simp only [lookA, hh, if_false, if_neg, not_false_iff]
          exact ih hp1

theorem setA_keys_nodup {α β : Type} [DecidableEq α]
    (l : List (α × β)) (a : α) (b : β)
    (h : (l.map Prod.fst).Nodup) : ((setA l a b).map Prod.fst).Nodup := by
  cases hl : lookA l a with
  | some v =>
      rw [setA_keys_of_mem l a b (by rw [hl]; rfl)]
      exact h
  | none =>
      rw [setA_keys_of_not_mem l a b hl]
      rw [List.nodup_append]
      refine ⟨h, List.nodup_singleton a, ?_⟩
      intro x hx hx1
      simp only [List.mem_singleton] at hx1
      subst hx1
      obtain ⟨p, hp, hfst⟩ := List.mem_map.mp hx
      have hsome := lookA_isSome_of_mem l p hp
      rw [hfst, hl] at hsome
      simp at hsome

/-- Claim C5: for a `ClientTable::check` call that finds an existing
record, the call is fatal if and only if the request number is strictly
greater than the recorded request number plus one; a request number less
than, equal to, or exactly one greater than the recorded one returns
without aborting. -/
theorem clientTable_check_fatal_iff (t : CTable)
    (remote client_id request_number : Nat) (rec0 : CRecord)
    (hrec : lookA t client_id = some rec0)
    (hr : rec0.request_number < U32) (hrn : request_number < U32) :
    ClientTable.check t remote client_id request_number = .error .fatal ↔
      rec0.request_number + 1 < request_number := by
  have hrec1 : ∀ c : Prop, ∀ h : Decidable c,
      (if c then { rec0 with remote := some remote } else rec0).request_number
        = rec0.request_number := by
    intro c h
    by_cases hc : c <;> simp [hc]
  unfold ClientTable.check
  rw [hrec]
  simp only
  rcases Nat.lt_trichotomy request_number rec0.request_number with h1 | h1 | h1
  · rw [if_pos]
    · constructor
      · intro h; exact absurd h (by simp)
      · intro h; omega
    · rw [hrec1]; exact h1
  · rw [if_neg, if_pos]
    · constructor
      · intro h
        rcases hrm : (if rec0.remote = none then
            { rec0 with remote := some remote } else rec0).reply_message with
          _ | rep <;> rw [hrm] at h <;> exact absurd h (by simp)
      · intro h; omega
    · rw [hrec1]; exact h1
    · rw [hrec1]; omega
  · rw [if_neg, if_neg]
    · by_cases h2 : request_number = (rec0.request_number + 1) % U32
      · rw [if_neg]
        · constructor
          · intro h; exact absurd h (by simp)
          · intro h
            rcases Nat.lt_or_ge (rec0.request_number + 1) U32 with h3 | h3
            · rw [Nat.mod_eq_of_lt h3] at h2; omega
            · omega
        · rw [hrec1]; simpa using h2
      · rw [if_pos]
        · constructor
          · intro _
            rcases Nat.lt_or_ge (rec0.request_number + 1) U32 with h3 | h3
            · rw [Nat.mod_eq_of_lt h3] at h2; omega
            · omega
          · intro _; rfl
        · rw [hrec1]; simpa using h2
    · rw [hrec1]; omega
    · rw [hrec1]; omega

/-- Witness for C5: at a concrete table with a record at request number
3, a check at request number 4 is not fatal and a check at request
number 9 is fatal, as the theorem's equivalence states. -/
theorem clientTable_check_fatal_iff_witness :
    (ClientTable.check [(1, ⟨some 5, 3, none⟩)] 6 1 4 = .error .fatal ↔
      (3 : Nat) + 1 < 4) ∧
    (ClientTable.check [(1, ⟨some 5, 3, none⟩)] 6 1 9 = .error .fatal ↔
      (3 : Nat) + 1 < 9) :=
  ⟨clientTable_check_fatal_iff [(1, ⟨some 5, 3, none⟩)] 6 1 4
      ⟨some 5, 3, none⟩ (by decide) (by decide) (by decide),
   clientTable_check_fatal_iff [(1, ⟨some 5, 3, none⟩)] 6 1 9
      ⟨some 5, 3, none⟩ (by decide) (by decide) (by decide)⟩

/-- Claim C6, counterexample: a record that already stores remote
address 0 is advanced by a check from remote address 1 with the next
request number, yet keeps remote address 0 — the stored remote address
is not refreshed to the remote argument of the call. -/
theorem clientTable_check_remote_cex :
    ClientTable.check [(1, ⟨some 0, 1, none⟩)] 1 1 2 =
      .ok ([(1, ⟨some 0, 2, none⟩)], .proceed) ∧
    (some 0 : Option Nat) ≠ some 1 :=
  ⟨rfl, by decide⟩

/-- Claim C6 (amended): when a record exists and the request number is
exactly one past the recorded one, the record is advanced, the cached
reply is cleared, the stored remote address is set to the call's remote
argument only when no remote was recorded (an already-recorded remote is
kept), and the falsy process-normally result is returned. -/
theorem clientTable_check_advance (t : CTable)
    (remote client_id request_number : Nat) (rec0 : CRecord)
    (hrec : lookA t client_id = some rec0)
    (hrn : request_number = rec0.request_number + 1)
    (hU : request_number < U32) :
    ClientTable.check t remote client_id request_number =
      .ok (setA t client_id
        ⟨if rec0.remote = none then some remote else rec0.remote,
         request_number, none⟩, .proceed) := by
  unfold ClientTable.check
  rw [hrec]
  simp only
  by_cases hrm : rec0.remote = none
  · rw [if_pos hrm]
    rw [if_neg (by simp; omega), if_neg (by simp; omega),
      if_neg (by simp [Nat.mod_eq_of_lt
        (by omega : rec0.request_number + 1 < U32)]; omega)]
    simp [hrm]
  · rw [if_neg hrm]
    rw [if_neg (by omega), if_neg (by omega),
      if_neg (by simp [Nat.mod_eq_of_lt
        (by omega : rec0.request_number + 1 < U32)]; omega)]
    simp [hrm]

/-- Witness for C6 (amended): a record with no stored remote is advanced
and picks up the caller's remote address. -/
theorem clientTable_check_advance_witness :
    ClientTable.check [(2, ⟨none, 7, none⟩)] 9 2 8 =
      .ok ([(2, ⟨some 9, 8, none⟩)], .proceed) := by
  have h := clientTable_check_advance [(2, ⟨none, 7, none⟩)] 9 2 8
    ⟨none, 7, none⟩ (by decide) (by decide) (by decide)
  simpa using h

/-- Claim C7: `Quorum::addAndCheckForQuorum` stores the message under the
replica id (replacing any previous message from that replica without
changing the number of distinct replica ids recorded under the key, and
keeping the ids distinct), and returns the inner map if and only if the
number of distinct replica ids recorded under the key is at least
`n_required`, returning null otherwise. -/
theorem quorum_addAndCheckForQuorum_spec {K M : Type} [DecidableEq K]
    (q : Quorum K M) (vs : K) (replica_id : Int) (msg : M)
    (hnd : ((q.messagesAt vs).2.map Prod.fst).Nodup) :
    lookA (setA (q.messagesAt vs).2 replica_id msg) replica_id = some msg ∧
    ((setA (q.messagesAt vs).2 replica_id msg).map Prod.fst).Nodup ∧
    ((lookA (q.messagesAt vs).2 replica_id).isSome →
      (setA (q.messagesAt vs).2 replica_id msg).length =
        (q.messagesAt vs).2.length) ∧
    ((q.addAndCheckForQuorum vs replica_id msg).2 =
        some (setA (q.messagesAt vs).2 replica_id msg) ↔
      q.numRequired ≤ (setA (q.messagesAt vs).2 replica_id msg).length) ∧
    ((q.addAndCheckForQuorum vs replica_id msg).2 = none ↔
      (setA (q.messagesAt vs).2 replica_id msg).length < q.numRequired) := by
  refine ⟨lookA_setA_self _ _ _, setA_keys_nodup _ _ _ hnd,
    fun h => setA_length_of_mem _ _ _ h, ?_, ?_⟩
  · unfold Quorum.addAndCheckForQuorum
    by_cases h : q.numRequired ≤ (setA (q.messagesAt vs).2 replica_id
        msg).length
    · simp [h, ge_iff_le]
    · simp [ge_iff_le, h]
  · unfold Quorum.addAndCheckForQuorum
    by_cases h : q.numRequired ≤ (setA (q.messagesAt vs).2 replica_id
        msg).length
    · simp [h, ge_iff_le]
    · simp [ge_iff_le, h]
      omega

/-- Witness for C7: a quorum set with threshold 2 holding one message
from replica 0 under key 5; re-adding a message from replica 0 replaces
the stored message, leaves the count at one, and reports no quorum. -/
theorem quorum_addAndCheckForQuorum_spec_witness :
    lookA (setA ((⟨2, [(5, [(0, 10)])]⟩ : Quorum Nat Nat).messagesAt 5).2
        0 20) 0 = some 20 ∧
    (setA ((⟨2, [(5, [(0, 10)])]⟩ : Quorum Nat Nat).messagesAt 5).2
        0 20).length =
      ((⟨2, [(5, [(0, 10)])]⟩ : Quorum Nat Nat).messagesAt 5).2.length ∧
    ((⟨2, [(5, [(0, 10)])]⟩ : Quorum Nat Nat).addAndCheckForQuorum
        5 0 20).2 = none := by
  have h := quorum_addAndCheckForQuorum_spec
    (⟨2, [(5, [(0, 10)])]⟩ : Quorum Nat Nat) 5 0 20 (by decide)
  exact ⟨h.1, h.2.2.1 (by decide), h.2.2.2.2.mpr (by decide)⟩

/-- Claim C8, counterexample: `BasicClient::invoke` on a client whose
`uint32_t` request number is 4294967295 and has no pending request does
not increment the request number by exactly 1 — it wraps to 0. -/
theorem basicClient_invoke_wrap_cex :
    BasicClient.invoke .primaryFirst 3 ⟨7, 4294967295, 0, none⟩ [1] 9 =
      .ok (⟨7, 0, 0, some ⟨0, [1], [], 9⟩⟩,
        [.sendToReplica 0 ⟨7, 0, [1]⟩, .spawnResend]) ∧
    (0 : Nat) ≠ 4294967295 + 1 :=
  ⟨rfl, by decide⟩

/-- Claim C8 (amended): `BasicClient::invoke` is fatal whenever a pending
request exists; otherwise the request number is incremented by exactly 1
modulo 2^32 (hence by exactly 1 whenever it is below 2^32 - 1), the
pending state with the new request number, the op, an empty result table
and the callback is stored, and the request is sent — under strategy
`all` to all replicas, under strategy `primary_first` to the primary of
the known view — together with the resend timer, so at most one
invocation is outstanding at any time. -/
theorem basicClient_invoke_spec (strategy : Strategy) (n_replica : Nat)
    (s : BCState) (op : Data) (callback : Nat) :
    (s.pending ≠ none →
      BasicClient.invoke strategy n_replica s op callback =
        .error .fatal) ∧
    (s.pending = none →
      (strategy = .sendAll →
        BasicClient.invoke strategy n_replica s op callback =
          .ok ({ s with
              request_number := (s.request_number + 1) % U32
              pending := some ⟨(s.request_number + 1) % U32, op, [],
                callback⟩ },
            [.sendToAll ⟨s.client_id, (s.request_number + 1) % U32, op⟩,
             .spawnResend])) ∧
      (strategy = .primaryFirst →
        BasicClient.invoke strategy n_replica s op callback =
          .ok ({ s with
              request_number := (s.request_number + 1) % U32
              pending := some ⟨(s.request_number + 1) % U32, op, [],
                callback⟩ },
            [.sendToReplica ((s.view_number % n_replica : Nat) : Int)
              ⟨s.client_id, (s.request_number + 1) % U32, op⟩,
             .spawnResend]))) := by
  constructor
  · intro h
    unfold BasicClient.invoke
    cases hp : s.pending with
    | some p => rfl
    | none => exact absurd hp h
  · intro h
    constructor
    · intro hs
      subst hs
      unfold BasicClient.invoke
      rw [h]
      rfl
    · intro hs
      subst hs
      unfold BasicClient.invoke
      rw [h]
      rfl

/-- Witness for C8 (amended): a fresh client with request number 3
invokes one op under each strategy, and an occupied client is fatal. -/
theorem basicClient_invoke_spec_witness :
    BasicClient.invoke .primaryFirst 3 ⟨7, 3, 2, none⟩ [4] 9 =
      .ok (⟨7, 4, 2, some ⟨4, [4], [], 9⟩⟩,
        [.sendToReplica 2 ⟨7, 4, [4]⟩, .spawnResend]) ∧
    BasicClient.invoke .sendAll 3 ⟨7, 3, 2, none⟩ [4] 9 =
      .ok (⟨7, 4, 2, some ⟨4, [4], [], 9⟩⟩,
        [.sendToAll ⟨7, 4, [4]⟩, .spawnResend]) ∧
    BasicClient.invoke .sendAll 3 ⟨7, 3, 2, some ⟨3, [], [], 0⟩⟩ [4] 9 =
      .error .fatal := by
  refine ⟨?_, ?_, ?_⟩
  · have h := ((basicClient_invoke_spec .primaryFirst 3 ⟨7, 3, 2, none⟩
      [4] 9).2 rfl).2 rfl
    simpa using h
  · have h := ((basicClient_invoke_spec .sendAll 3 ⟨7, 3, 2, none⟩
      [4] 9).2 rfl).1 rfl
    simpa using h
  · exact (basicClient_invoke_spec .sendAll 3
      ⟨7, 3, 2, some ⟨3, [], [], 0⟩⟩ [4] 9).1 (by simp)

/-- Claim C2, counterexample: a `Normal`-status backup at view 0
receiving a `Prepare` for view 1 hits the unimplemented
`rpanic("todo")` path — the process aborts, so the replica does not
transition to `ViewChange` status with view number 1. -/
theorem vr_handlePrepare_higher_view_cex :
    handlePrepare idApp freshBackup ⟨1, 1, ⟨[], 0⟩, 0⟩ = .error .fatal :=
  rfl

/-- Claim C2 (amended): a VR replica in `Normal` status receiving a
`Prepare` message whose view number is strictly greater than its own
view number aborts fatally (the view-change path for this case is the
unimplemented `rpanic("todo")` branch); it does not enter view change. -/
theorem vr_handlePrepare_higher_view {σ : Type}
    (appCommit : σ → Data → σ × Data) (s : RState σ) (m : PrepareMessage)
    (hst : s.status = .normal) (hv : s.view_number < m.view_number) :
    handlePrepare appCommit s m = .error .fatal := by
  unfold handlePrepare
  rw [if_neg (by simp [hst]; omega), if_pos hv]

/-- Witness for C2 (amended): replica 1 of 3 at view 0 in `Normal`
status aborts on a `Prepare` for view 2. -/
theorem vr_handlePrepare_higher_view_witness :
    handlePrepare idApp freshBackup ⟨2, 5, ⟨[], 0⟩, 3⟩ = .error .fatal :=
  vr_handlePrepare_higher_view idApp freshBackup ⟨2, 5, ⟨[], 0⟩, 3⟩
    (by decide) (by decide)

theorem sumEntries_append (a b : List FlattenBlock) :
    sumEntries (a ++ b) = sumEntries a + sumEntries b := by
  induction a with
  | nil => simp [sumEntries]
  | cons hd tl ih =>
      simp only [sumEntries, List.foldr_cons, List.cons_append] at *
      omega

theorem sumEntries_take_le (bl : List FlattenBlock) (k : Nat) :
    sumEntries (bl.take k) ≤ sumEntries bl := by
  conv_rhs => rw [← List.take_append_drop k bl]
  rw [sumEntries_append]
  omega

/-- Claim C10: with the start number set and an index at least the start
number, `ListLog::rollbackTo` reads the flattened block at offset
`index - start_number` with no upper-bounds check; the access stays in
bounds (the embedding's error branch is unreachable) exactly when
`index < start_number + number-of-prepared-blocks`, and under that
precondition the call truncates the block list to the blocks before
`index` and the entry list to their entries, leaving them unchanged. -/
theorem listLog_rollbackTo_spec (l : LLog) (index : Nat)
    (hwf : LWF l) (hge : l.start_number ≤ index) (hidx : index < U64) :
    ((∃ l2, l.rollbackTo index = .ok l2) ↔
      index < l.start_number + l.block_list.length) ∧
    (index < l.start_number + l.block_list.length →
      l.rollbackTo index = .ok { l with
        block_list := l.block_list.take (index - l.start_number)
        entry_list := l.entry_list.take
          (sumEntries (l.block_list.take (index - l.start_number))) }) := by
  obtain ⟨h1, h2, h3, h4, h5, h6⟩ := hwf
  have hs0 : l.start_number ≠ 0 := by omega
  have hoff : (index + U64 - l.start_number) % U64 = index - l.start_number := by
    have he : index + U64 - l.start_number = (index - l.start_number) + U64 := by
      omega
    rw [he, Nat.add_mod_right, Nat.mod_eq_of_lt (by omega)]
  unfold LLog.rollbackTo LLog.blockOffsetE
  rw [if_neg hs0, if_neg (by omega), if_neg hs0]
  simp only [hoff]
  cases hget : l.block_list.get? (index - l.start_number) with
  | none =>
      have hlen : l.block_list.length ≤ index - l.start_number := by
        by_contra hc
        rw [List.get?_eq_get (by omega)] at hget
        exact Option.noConfusion hget
      constructor
      · constructor
        · rintro ⟨l2, hl2⟩
          exact Except.noConfusion hl2
        · intro hlt; omega
      · intro hlt; omega
  | some fb =>
      have hlen : index - l.start_number < l.block_list.length := by
        by_contra hc
        rw [List.get?_eq_none.mpr (by omega)] at hget
        exact Option.noConfusion hget
      have hfb : fb = l.block_list.getD (index - l.start_number) default := by
        rw [List.getD_eq_get? , hget]
        rfl
      have hoffv : fb.offset =
          sumEntries (l.block_list.take (index - l.start_number)) := by
        rw [hfb]
        exact (h3 (index - l.start_number) hlen).1
      have hble : fb.offset ≤ l.entry_list.length := by
        rw [hoffv, h4]
        exact sumEntries_take_le _ _
      dsimp only
      rw [if_pos hble]
      constructor
      · constructor
        · intro _; omega
        · intro _
          exact ⟨_, rfl⟩
      · intro _
        rw [hoffv]

/-- Witness for C10: a log with two prepared one-entry blocks starting
at index 1; rolling back to index 2 keeps exactly the first block and
its entry, and the rollback succeeds exactly because 2 < 1 + 2. -/
theorem listLog_rollbackTo_spec_witness :
    LLog.rollbackTo
        ⟨[⟨0, 1, false⟩, ⟨1, 1, false⟩], [⟨1, 1, [5]⟩, ⟨1, 2, [6]⟩], 1, 0,
          true⟩ 2 =
      .ok ⟨[⟨0, 1, false⟩], [⟨1, 1, [5]⟩], 1, 0, true⟩ := by
  have h := (listLog_rollbackTo_spec
    ⟨[⟨0, 1, false⟩, ⟨1, 1, false⟩], [⟨1, 1, [5]⟩, ⟨1, 2, [6]⟩], 1, 0, true⟩
    2 (by decide) (by decide) (by decide)).2 (by decide)
  simpa using h

/- Indexed-access helper lemmas for the drain development. -/

theorem getD_set_self (bl : List FlattenBlock) (k : Nat) (b : FlattenBlock)
    (h : k < bl.length) : (bl.set k b).getD k default = b := by
  induction bl generalizing k with
  | nil => simp at h
  | cons hd tl ih =>
      cases k with
      | zero => rfl
      | succ k =>
          simp only [List.set, List.getD, List.length_cons] at *
          exact ih k (by omega)

theorem getD_set_ne (bl : List FlattenBlock) (k : Nat) (b : FlattenBlock)
    (j : Nat) (h : j ≠ k) :
    (bl.set k b).getD j default = bl.getD j default := by
  induction bl generalizing k j with
  | nil => cases k <;> rfl
  | cons hd tl ih =>
      cases k with
      | zero =>
          cases j with
          | zero => exact absurd rfl h
          | succ j => rfl
      | succ k =>
          cases j with
          | zero => rfl
          | succ j =>
              simp only [List.set, List.getD] at *
              exact ih k j (by omega)

theorem getD_drop (bl : List FlattenBlock) (o i : Nat) :
    (bl.drop o).getD i default = bl.getD (o + i) default := by
  induction bl generalizing o with
  | nil => simp [List.getD]
  | cons hd tl ih =>
      cases o with
      | zero => rw [List.drop_zero, Nat.zero_add]
      | succ o =>
          simp only [List.drop]
          rw [ih o, show o + 1 + i = (o + i) + 1 from by omega]
          rfl

theorem take_set_of_le (bl : List FlattenBlock) (k : Nat)
    (b : FlattenBlock) (j : Nat) (h : j ≤ k) :
    (bl.set k b).take j = bl.take j := by
  induction bl generalizing k j with
  | nil => cases k <;> rfl
  | cons hd tl ih =>
      cases k with
      | zero =>
          cases j with
          | zero => rfl
          | succ j => omega
      | succ k =>
          cases j with
          | zero => rfl
          | succ j =>
              simp only [List.set, List.take, List.cons.injEq, true_and]
              exact ih k j (by omega)

theorem sumEntries_take_succ (bl : List FlattenBlock) (o : Nat)
    (h : o < bl.length) :
    sumEntries (bl.take (o + 1)) =
      sumEntries (bl.take o) + (bl.getD o default).n_entry.toNat := by
  induction bl generalizing o with
  | nil => simp at h
  | cons hd tl ih =>
      cases o with
      | zero => simp [sumEntries, List.getD]
      | succ o =>
          simp only [List.take, List.length_cons] at *
          simp only [sumEntries, List.foldr_cons] at *
          rw [ih o (by omega)]
          simp [List.getD]
          omega

/- Generic takeWhile facts, via the boolean predicate. -/

theorem takeWhile_all {α : Type} [Inhabited α] (p : α → Bool)
    (l : List α) (i : Nat) (h : i < (l.takeWhile p).length) :
    p (l.getD i default) = true := by
  induction l generalizing i with
  | nil => simp [List.takeWhile] at h
  | cons hd tl ih =>
      by_cases hp : p hd
      · rw [List.takeWhile_cons, if_pos hp] at h
        cases i with
        | zero => exact hp
        | succ i =>
            simp only [List.length_cons] at h
            exact ih i (by omega)
      · rw [List.takeWhile_cons, if_neg hp] at h
        simp at h

theorem takeWhile_stop {α : Type} [Inhabited α] (p : α → Bool)
    (l : List α) (h : (l.takeWhile p).length < l.length) :
    p (l.getD (l.takeWhile p).length default) = false := by
  induction l with
  | nil => simp at h
  | cons hd tl ih =>
      by_cases hp : p hd
      · rw [List.takeWhile_cons, if_pos hp] at h ⊢
        simp only [List.length_cons] at h ⊢
        exact ih (by omega)
      · rw [List.takeWhile_cons, if_neg hp]
        simp only [List.length_nil]
        simpa using hp

theorem takeWhile_length_le {α : Type} (p : α → Bool) (l : List α) :
    (l.takeWhile p).length ≤ l.length := by
  induction l with
  | nil => simp
  | cons hd tl ih =>
      rw [List.takeWhile_cons]
      by_cases hp : p hd
      · rw [if_pos hp]
        simp only [List.length_cons]
        omega
      · rw [if_neg hp]
        simp only [List.length_nil, List.length_cons]
        omega

/- Streak facts: the streak counts committed blocks, stops at the first
uncommitted one, and stays within the list. -/

theorem streakFrom_le (bl : List FlattenBlock) (o : Nat) :
    streakFrom bl o ≤ bl.length - o := by
  unfold streakFrom
  have h1 := takeWhile_length_le (fun b => b.committed) (bl.drop o)
  rw [List.length_drop] at h1
  omega

theorem streakFrom_zero_of_ge (bl : List FlattenBlock) (o : Nat)
    (h : bl.length ≤ o) : streakFrom bl o = 0 := by
  unfold streakFrom
  rw [List.drop_eq_nil_of_le h]
  rfl

theorem streakFrom_all (bl : List FlattenBlock) (o i : Nat)
    (h : i < streakFrom bl o) :
    (bl.getD (o + i) default).committed = true := by
  unfold streakFrom at h
  have := takeWhile_all (fun b => b.committed) (bl.drop o) i h
  rwa [getD_drop] at this

theorem streakFrom_stop (bl : List FlattenBlock) (o : Nat)
    (h : o + streakFrom bl o < bl.length) :
    (bl.getD (o + streakFrom bl o) default).committed = false := by
  unfold streakFrom at h ⊢
  have := takeWhile_stop (fun b => b.committed) (bl.drop o)
    (by rw [List.length_drop]; omega)
  rwa [getD_drop] at this

theorem streakFrom_succ_of_committed (bl : List FlattenBlock) (o : Nat)
    (ho : o < bl.length) (hc : (bl.getD o default).committed = true) :
    streakFrom bl o = streakFrom bl (o + 1) + 1 := by
  unfold streakFrom
  rw [List.drop_eq_getElem_cons ho, List.takeWhile_cons]
  rw [if_pos (by
    have : bl.getD o default = bl[o] := List.getD_eq_getElem bl default ho
    rw [this] at hc
    exact hc)]
  simp only [List.length_cons]

theorem streakFrom_zero_of_not_committed (bl : List FlattenBlock)
    (o : Nat) (ho : o < bl.length)
    (hc : (bl.getD o default).committed = false) :
    streakFrom bl o = 0 := by
  unfold streakFrom
  rw [List.drop_eq_getElem_cons ho, List.takeWhile_cons]
  rw [if_neg (by
    have : bl.getD o default = bl[o] := List.getD_eq_getElem bl default ho
    rw [this] at hc
    simp [hc])]
  rfl

/- The guarded entry-execution loop agrees with its total reference
version whenever the accessed range lies inside the entry vector. -/
theorem execEntries_eq_blockEvents {σ : Type}
    (appCommit : σ → Data → σ × Data) (el : List Entry) :
    ∀ (n base : Nat) (a : σ), base + n ≤ el.length →
      execEntries appCommit el a base n =
        some (blockEvents appCommit el a base n) := by
  intro n
  induction n with
  | zero => intro base a h; rfl
  | succ n ih =>
      intro base a h
      have hb : base < el.length := by omega
      have hq : el.get? base = some (el.getD base default) := by
        rw [List.get?_eq_get hb, List.getD_eq_getElem el default hb]
        rfl
      unfold execEntries blockEvents
      rw [hq]
      simp only
      rw [ih (base + 1) (appCommit a (el.getD base default).op).1 (by omega)]

theorem sumEntries_take_set (bl : List FlattenBlock) (k : Nat)
    (b : FlattenBlock) (hn : b.n_entry = (bl.getD k default).n_entry) :
    ∀ j, sumEntries ((bl.set k b).take j) = sumEntries (bl.take j) := by
  induction bl generalizing k with
  | nil => intro j; cases k <;> rfl
  | cons hd tl ih =>
      intro j
      cases k with
      | zero =>
          cases j with
          | zero => rfl
          | succ j =>
              simp only [List.set, List.take, sumEntries, List.foldr_cons]
              simp only [List.getD, List.get?] at hn
              simp [hn]
      | succ k =>
          cases j with
          | zero => rfl
          | succ j =>
              simp only [List.set, List.take, sumEntries, List.foldr_cons]
              have := ih k (by simpa [List.getD] using hn) j
              simp only [sumEntries] at this
              omega

theorem sumEntries_set (bl : List FlattenBlock) (k : Nat)
    (b : FlattenBlock) (hn : b.n_entry = (bl.getD k default).n_entry) :
    sumEntries (bl.set k b) = sumEntries bl := by
  have h1 := sumEntries_take_set bl k b hn (bl.length)
  rwa [show (bl.set k b).take bl.length = bl.set k b from by
      rw [← List.length_set bl k b]
      exact List.take_length _,
    List.take_length] at h1

/- Marking a block committed preserves log well-formedness. -/
theorem LWF_mark (l : LLog) (off : Nat) (hwf : LWF l)
    (hoff : off < l.block_list.length) : LWF (l.mark off) := by
  obtain ⟨h1, h2, h3, h4, h5, h6⟩ := hwf
  unfold LLog.mark
  refine ⟨h1, ?_, ?_, ?_, h5, ?_⟩
  · simpa [List.length_set] using h2
  · intro k hk
    simp only [List.length_set] at hk
    by_cases hko : k = off
    · subst hko
      rw [getD_set_self _ _ _ hoff]
      refine ⟨?_, ?_⟩
      · simp only
        rw [sumEntries_take_set _ _ _ (by simp)]
        exact (h3 k hk).1
      · simpa using (h3 k hk).2
    · rw [getD_set_ne _ _ _ _ hko]
      refine ⟨?_, ?_⟩
      · rw [sumEntries_take_set _ _ _ (by simp)]
        exact (h3 k hk).1
      · exact (h3 k hk).2
  · simp only
    rw [sumEntries_set _ _ _ (by simp)]
    exact h4
  · simpa [List.length_set] using h6

/- The drain loop of `ListLog::makeUpcall`, solved in closed form: with
enough fuel, it advances the watermark over the streak of committed
blocks after it and produces exactly the reference execution of those
blocks. -/
theorem makeUpcallF_spec {σ : Type} (appCommit : σ → Data → σ × Data) :
    ∀ (fuel : Nat) (l : LLog) (a : σ), LWF l →
      l.block_list.length + 1 -
        (l.commit_number + 1 - l.start_number) ≤ fuel →
      makeUpcallF appCommit fuel l a =
        .ok ({ l with
            commit_number := l.commit_number +
              streakFrom l.block_list
                (l.commit_number + 1 - l.start_number) },
          drainExec appCommit l.block_list l.entry_list l.start_number a
            (List.range' (l.commit_number + 1)
              (streakFrom l.block_list
                (l.commit_number + 1 - l.start_number)))) := by
  intro fuel
  induction fuel with
  | zero =>
      intro l a hwf hfuel
      obtain ⟨h1, h2, h3, h4, h5, h6⟩ := hwf
      omega
  | succ fuel ih =>
      intro l a hwf hfuel
      obtain ⟨h1, h2, h3, h4, h5, h6⟩ := hwf
      have hs0 : l.start_number ≠ 0 := by omega
      have hoffE : l.blockOffsetE ((l.commit_number + 1) % U64) =
          some (l.commit_number + 1 - l.start_number) := by
        unfold LLog.blockOffsetE
        rw [if_neg hs0]
        congr 1
        simp only [U64] at h2 ⊢
        omega
      rw [makeUpcallF, hoffE]
      simp only
      by_cases ho : l.commit_number + 1 - l.start_number <
          l.block_list.length
      · by_cases hcm : (l.block_list.getD
            (l.commit_number + 1 - l.start_number) default).committed = true
        · rw [if_pos ⟨ho, hcm⟩]
          have hc1 : (l.commit_number + 1) % U64 = l.commit_number + 1 := by
            apply Nat.mod_eq_of_lt
            omega
          rw [hc1]
          have hblk := (h3 _ ho).1
          have hexec := execEntries_eq_blockEvents appCommit l.entry_list
            ((l.block_list.getD (l.commit_number + 1 - l.start_number)
              default).n_entry.toNat)
            ((l.block_list.getD (l.commit_number + 1 - l.start_number)
              default).offset) a
            (by
              rw [hblk]
              rw [← sumEntries_take_succ _ _ ho, h4]
              exact sumEntries_take_le _ _)
          rw [hexec]
          simp only
          have hwf1 : LWF { l with commit_number := l.commit_number + 1 } :=
            ⟨h1, h2, h3, h4, by simp; omega, by simp; omega⟩
          have hfuel1 : ({ l with commit_number :=
              l.commit_number + 1 } : LLog).block_list.length + 1 -
              (({ l with commit_number := l.commit_number + 1 } :
                LLog).commit_number + 1 -
                ({ l with commit_number := l.commit_number + 1 } :
                  LLog).start_number) ≤ fuel := by
            simp only
            omega
          rw [ih _ _ hwf1 hfuel1]
          simp only
          have hstreak := streakFrom_succ_of_committed _ _ ho hcm
          rw [hstreak]
          rw [show l.commit_number + 1 + 1 - l.start_number =
              l.commit_number + 1 - l.start_number + 1 from by omega]
          rw [show l.commit_number + 1 + streakFrom l.block_list
              (l.commit_number + 1 - l.start_number + 1) =
              l.commit_number + (streakFrom l.block_list
                (l.commit_number + 1 - l.start_number + 1) + 1)
              from by omega]
          rw [show List.range' (l.commit_number + 1)
              (streakFrom l.block_list
                (l.commit_number + 1 - l.start_number + 1) + 1) =
              (l.commit_number + 1) :: List.range' (l.commit_number + 1 + 1)
                (streakFrom l.block_list
                  (l.commit_number + 1 - l.start_number + 1))
              from rfl]
          rw [drainExec]
        · rw [if_neg (by
            intro hand
            exact hcm hand.2)]
          rw [streakFrom_zero_of_not_committed _ _ ho
            (by simpa using hcm)]
          rfl
      · rw [if_neg (by
          intro hand
          exact ho hand.1)]
        rw [streakFrom_zero_of_ge _ _ (by omega)]
        rfl

/-- Claim C3: for a well-formed list log with upcalls enabled,
`ListLog::commit(index, callback)` is fatal when the block at `index` is
not prepared; otherwise it marks that block committed and drains: the
commit number advances by the streak of consecutively committed blocks
after the old commit number — every block from `commit_number + 1`
through the new commit number is committed and the block after the new
commit number (when prepared) is not, so the new commit number is the
greatest such index — and the produced application commits and callback
invocations are exactly the reference execution, in log order, of each
newly executed block's entries, one `app.commit` and one callback per
entry carrying the entry's client id, request number and the reply. -/
theorem listLog_commit_spec {σ : Type} (appCommit : σ → Data → σ × Data)
    (l : LLog) (a : σ) (index : Nat) (hwf : LWF l)
    (hup : l.enable_upcall = true) (hidx : index < U64) :
    (¬LPrepared l index →
      LLog.commit appCommit l a index = .error .fatal) ∧
    (LPrepared l index →
      LLog.commit appCommit l a index =
        .ok ({ l.mark (index - l.start_number) with
            commit_number := l.commit_number +
              streakFrom (l.mark (index - l.start_number)).block_list
                (l.commit_number + 1 - l.start_number) },
          drainExec appCommit
            (l.mark (index - l.start_number)).block_list l.entry_list
            l.start_number a
            (List.range' (l.commit_number + 1)
              (streakFrom (l.mark (index - l.start_number)).block_list
                (l.commit_number + 1 - l.start_number)))) ∧
      (∀ i, l.commit_number < i →
        i ≤ l.commit_number +
          streakFrom (l.mark (index - l.start_number)).block_list
            (l.commit_number + 1 - l.start_number) →
        ((l.mark (index - l.start_number)).block_list.getD
          (i - l.start_number) default).committed = true) ∧
      (l.commit_number +
          streakFrom (l.mark (index - l.start_number)).block_list
            (l.commit_number + 1 - l.start_number) + 1 <
          l.start_number + l.block_list.length →
        ((l.mark (index - l.start_number)).block_list.getD
          (l.commit_number +
            streakFrom (l.mark (index - l.start_number)).block_list
              (l.commit_number + 1 - l.start_number) + 1 -
            l.start_number) default).committed = false)) := by
  obtain ⟨h1, h2, h3, h4, h5, h6⟩ := hwf
  constructor
  · intro hnp
    unfold LPrepared at hnp
    push_neg at hnp
    have hcase : index < l.start_number ∨
        l.start_number + l.block_list.length ≤ index := by
      by_cases hx : l.start_number ≤ index
      · right
        have := hnp (by omega) hx
        omega
      · left
        omega
    unfold LLog.commit LLog.blockOffsetE
    rw [if_neg (by omega)]
    simp only
    rw [if_pos (by
      show l.block_list.length ≤ (index + U64 - l.start_number) % U64
      simp only [U64] at h2 hidx ⊢
      omega)]
  · intro hp
    obtain ⟨hp0, hp1, hp2⟩ := hp
    have hoffl : index - l.start_number < l.block_list.length := by omega
    have hwfm := LWF_mark l (index - l.start_number)
      ⟨h1, h2, h3, h4, h5, h6⟩ hoffl
    have hlenm : (l.mark (index - l.start_number)).block_list.length =
        l.block_list.length := by
      simp [LLog.mark, List.length_set]
    refine ⟨?_, ?_, ?_⟩
    · unfold LLog.commit LLog.blockOffsetE
      rw [if_neg hp0]
      simp only
      rw [show (index + U64 - l.start_number) % U64 =
          index - l.start_number from by
        simp only [U64] at h2 ⊢
        omega]
      rw [if_neg (by omega)]
      rw [show ((l.mark (index - l.start_number)).enable_upcall = true)
        from by simp [LLog.mark, hup]]
      simp only [if_true]
      rw [makeUpcallF_spec appCommit _ _ a hwfm (by omega)]
      simp only [LLog.mark, hup]
    · intro i hi1 hi2
      have hr := streakFrom_all
        (l.mark (index - l.start_number)).block_list
        (l.commit_number + 1 - l.start_number)
        (i - l.commit_number - 1) (by omega)
      rw [show l.commit_number + 1 - l.start_number +
          (i - l.commit_number - 1) = i - l.start_number from by omega]
        at hr
      exact hr
    · intro hlt
      have hr := streakFrom_stop
        (l.mark (index - l.start_number)).block_list
        (l.commit_number + 1 - l.start_number) (by rw [hlenm]; omega)
      rw [show l.commit_number + 1 - l.start_number +
          streakFrom (l.mark (index - l.start_number)).block_list
            (l.commit_number + 1 - l.start_number) =
          l.commit_number +
            streakFrom (l.mark (index - l.start_number)).block_list
              (l.commit_number + 1 - l.start_number) + 1 -
            l.start_number from by omega] at hr
      exact hr

/-- Witness for C3: a log holding blocks at indices 1 (uncommitted) and
2 (already committed), watermark 0; committing index 1 marks it, drains
both blocks, moves the commit number to 2, and fires the two callbacks
in log order with the echoed replies. -/
theorem listLog_commit_spec_witness :
    LLog.commit idApp
        ⟨[⟨0, 1, false⟩, ⟨1, 1, true⟩], [⟨1, 1, [5]⟩, ⟨2, 2, [6]⟩], 1, 0,
          true⟩ () 1 =
      .ok (⟨[⟨0, 1, true⟩, ⟨1, 1, true⟩], [⟨1, 1, [5]⟩, ⟨2, 2, [6]⟩], 1,
          2, true⟩, (), [(1, 1, [5]), (2, 2, [6])]) := by
  have h := ((listLog_commit_spec idApp
    ⟨[⟨0, 1, false⟩, ⟨1, 1, true⟩], [⟨1, 1, [5]⟩, ⟨2, 2, [6]⟩], 1, 0, true⟩
    () 1 (by decide) rfl (by decide)).2 (by decide)).1
  exact h.trans rfl

/- Committing a prepared block of a well-formed log succeeds and keeps
the log well-formed with the same shape. -/
theorem LLog_commit_ok {σ : Type} (appCommit : σ → Data → σ × Data)
    (l : LLog) (a : σ) (index : Nat) (hwf : LWF l)
    (hp : LPrepared l index) (hidx : index < U64) :
    ∃ l2 a2 evs, LLog.commit appCommit l a index = .ok (l2, a2, evs) ∧
      LWF l2 ∧ l2.start_number = l.start_number ∧
      l2.block_list.length = l.block_list.length ∧
      l2.enable_upcall = l.enable_upcall := by
  obtain ⟨h1, h2, h3, h4, h5, h6⟩ := hwf
  obtain ⟨hp0, hp1, hp2⟩ := hp
  have hoffl : index - l.start_number < l.block_list.length := by omega
  have hwfm := LWF_mark l (index - l.start_number)
    ⟨h1, h2, h3, h4, h5, h6⟩ hoffl
  have hmlen : (l.mark (index - l.start_number)).block_list.length =
      l.block_list.length := by
    simp [LLog.mark, List.length_set]
  have hmstart : (l.mark (index - l.start_number)).start_number =
      l.start_number := by
    simp [LLog.mark]
  have hmcommit : (l.mark (index - l.start_number)).commit_number =
      l.commit_number := by
    simp [LLog.mark]
  have hmup : (l.mark (index - l.start_number)).enable_upcall =
      l.enable_upcall := by
    simp [LLog.mark]
  unfold LLog.commit LLog.blockOffsetE
  rw [if_neg hp0]
  simp only
  rw [show (index + U64 - l.start_number) % U64 = index - l.start_number
    from by simp only [U64] at h2 hidx ⊢; omega]
  rw [if_neg (by omega)]
  by_cases hup : (l.mark (index - l.start_number)).enable_upcall = true
  · rw [if_pos hup]
    rw [makeUpcallF_spec appCommit _ _ a hwfm (by omega)]
    obtain ⟨m1, m2, m3, m4, m5, m6⟩ := hwfm
    have hstreak := streakFrom_le (l.mark (index - l.start_number)).block_list
      ((l.mark (index - l.start_number)).commit_number + 1 -
        (l.mark (index - l.start_number)).start_number)
    refine ⟨_, _, _, rfl, ⟨m1, m2, m3, m4, ?_, ?_⟩, hmstart, hmlen, ?_⟩
    · simp only
      omega
    · simp only
      omega
    · simp only
      exact hmup
  · rw [if_neg hup]
    exact ⟨_, _, _, rfl, hwfm, hmstart, hmlen, hmup⟩

/- The reply callbacks never emit `log.commit` effects. -/
theorem processCbs_no_logCommit (view : Nat) (primary : Bool) :
    ∀ (t : CTable) (cbs : List CbEvent),
      ((processCbs view primary t cbs).2).filterMap effLogIdx = [] := by
  intro t cbs
  induction cbs generalizing t with
  | nil => rfl
  | cons ev rest ih =>
      unfold processCbs
      simp only [List.filterMap_append]
      rw [ih]
      unfold processCb
      cases hres : (ClientTable.update3 t ev.1 ev.2.1
          ⟨ev.2.1, ev.2.2, view, 0⟩).2 with
      | proceed => simp [hres]
      | noop => simp [hres]
      | resend r rep =>
          simp only [hres]
          by_cases hpr : primary = true
          · simp [hpr, effLogIdx]
          · simp only [Bool.not_eq_true] at hpr
            simp [hpr, effLogIdx]

/- The `commitUpTo` loop body over a list of prepared indices: it
succeeds, touches only the log, the application and the client table,
and its trace of `log.commit` calls is exactly the index list. -/
theorem cuLoop_spec {σ : Type} (appCommit : σ → Data → σ × Data) :
    ∀ (idxs : List Nat) (s : RState σ),
      LWF s.log → (∀ i ∈ idxs, LPrepared s.log i ∧ i < U64) →
      ∃ l2 a2 t2 effs,
        cuLoop appCommit s idxs =
          .ok ({ s with log := l2, app := a2, client_table := t2 }, effs) ∧
        effs.filterMap effLogIdx = idxs ∧ LWF l2 ∧
        l2.start_number = s.log.start_number ∧
        l2.block_list.length = s.log.block_list.length := by
  intro idxs
  induction idxs with
  | nil =>
      intro s hwf hp
      exact ⟨s.log, s.app, s.client_table, [], rfl, rfl, hwf, rfl, rfl⟩
  | cons i rest ih =>
      intro s hwf hp
      obtain ⟨l2, a2, evs, hcommit, hwf2, hstart2, hlen2, hup2⟩ :=
        LLog_commit_ok appCommit s.log s.app i hwf
          (hp i (List.mem_cons_self i rest)).1
          (hp i (List.mem_cons_self i rest)).2
      unfold cuLoop
      rw [hcommit]
      simp only
      obtain ⟨l3, a3, t3, effs3, hloop, hfilter, hwf3, hstart3, hlen3⟩ :=
        ih ({ s with
            log := l2
            app := a2
            client_table := (processCbs s.view_number (decide s.isPrimary)
              s.client_table evs).1 })
          hwf2
          (by
            intro j hj
            obtain ⟨⟨q0, q1, q2⟩, q3⟩ := hp j (List.mem_cons_of_mem i hj)
            refine ⟨⟨?_, ?_, ?_⟩, q3⟩
            · simp only
              rw [hstart2]
              exact q0
            · simp only
              rw [hstart2]
              exact q1
            · simp only
              rw [hstart2, hlen2]
              exact q2)
      rw [hloop]
      refine ⟨l3, a3, t3, _, rfl, ?_, hwf3, ?_, ?_⟩
      · simp only [List.filterMap_cons, List.filterMap_append]
        rw [hfilter, processCbs_no_logCommit]
        rfl
      · simp only at hstart3
        rw [hstart3, hstart2]
      · simp only at hlen3
        rw [hlen3, hlen2]

/-- Claim C1: a primary in `Normal` status handling a `PrepareOk` for
its current view: when the message's op number is strictly greater than
the commit number and adding the sender's vote makes the set of distinct
replica ids recorded for that op number reach the threshold `n_fault`,
the replica calls `log.commit` for every index from
`commit_number + 1` up to that op number, in order, and ends with its
commit number equal to that op number; a `PrepareOk` whose op number is
at most the commit number is dropped without changing any state. -/
theorem vr_handlePrepareOk_spec {σ : Type}
    (appCommit : σ → Data → σ × Data) (s : RState σ)
    (m : PrepareOkMessage) (hst : s.status = .normal)
    (hv : m.view_number = s.view_number) (hprim : s.isPrimary)
    (hnum : s.prepare_ok_set.numRequired = s.n_fault) :
    (m.op_number ≤ s.commit_number →
      handlePrepareOk appCommit s m = .ok (s, [])) ∧
    (s.commit_number < m.op_number → m.op_number < U64 → LWF s.log →
      (∀ i ∈ commitIndices s.commit_number m.op_number,
        LPrepared s.log i) →
      s.n_fault ≤ (setA (s.prepare_ok_set.messagesAt m.op_number).2
        m.replica_id m).length →
      ∃ s2 effs, handlePrepareOk appCommit s m = .ok (s2, effs) ∧
        effs.filterMap effLogIdx =
          List.range' (s.commit_number + 1)
            (m.op_number - s.commit_number) ∧
        s2.commit_number = m.op_number) := by
  have hdrop1 : ¬(s.status ≠ Status.normal ∨
      m.view_number < s.view_number) := by
    rw [hst, hv]
    simp
  constructor
  · intro hle
    unfold handlePrepareOk
    rw [if_neg hdrop1, if_neg (by omega), if_neg (by simpa using hprim),
      if_pos hle]
  · intro hgt hU hwf hprep hq
    have hp2 : (s.prepare_ok_set.addAndCheckForQuorum m.op_number
        m.replica_id m).2 = some (setA
          (s.prepare_ok_set.messagesAt m.op_number).2 m.replica_id m) := by
      unfold Quorum.addAndCheckForQuorum
      simp only
      rw [if_pos (by rw [hnum]; exact hq)]
    unfold handlePrepareOk
    rw [if_neg hdrop1, if_neg (by omega), if_neg (by simpa using hprim),
      if_neg (by omega)]
    dsimp only
    rw [hp2]
    unfold commitUpTo
    obtain ⟨l3, a3, t3, effs, hloop, hfilter, hwf3, hstart3, hlen3⟩ :=
      cuLoop_spec appCommit (commitIndices s.commit_number m.op_number)
        { s with prepare_ok_set :=
            (s.prepare_ok_set.addAndCheckForQuorum m.op_number
              m.replica_id m).1 }
        hwf
        (by
          intro i hi
          refine ⟨hprep i hi, ?_⟩
          have hmem := List.mem_range'_1.mp (by
            unfold commitIndices at hi
            exact hi)
          omega)
    rw [hloop]
    refine ⟨_, _, rfl, ?_, rfl⟩
    rw [hfilter]
    unfold commitIndices
    rw [show (s.commit_number + 1) % U64 = s.commit_number + 1 from
      Nat.mod_eq_of_lt (by omega)]
    rw [show m.op_number + 1 - (s.commit_number + 1) =
      m.op_number - s.commit_number from by omega]

/-- Witness for C1: the primary `primaryS` (threshold `n_fault` 1,
commit number 0, block prepared at index 1) receives `PrepareOk` for op
1 from replica 1; the quorum is reached, `log.commit` is called exactly
at index 1, and the commit number becomes 1. -/
theorem vr_handlePrepareOk_spec_witness :
    ∃ s2 effs, handlePrepareOk idApp primaryS ⟨0, 1, 1⟩ =
        .ok (s2, effs) ∧
      effs.filterMap effLogIdx = [1] ∧ s2.commit_number = 1 := by
  have h := (vr_handlePrepareOk_spec idApp primaryS ⟨0, 1, 1⟩ (by decide)
    rfl (by decide) (by decide)).2 (by decide) (by decide) (by decide)
    (by decide) (by decide)
  obtain ⟨s2, effs, h1, h2, h3⟩ := h
  exact ⟨s2, effs, h1, by rw [h2]; decide, h3⟩

/- Error classification: none of the log or client-table operations can
produce the batch-write error; it can only come from the batch store in
the `Request` handler. -/

theorem makeUpcallF_err {σ : Type} (appCommit : σ → Data → σ × Data) :
    ∀ (fuel : Nat) (l : LLog) (a : σ) (e : Err),
      makeUpcallF appCommit fuel l a = .error e → e ≠ .batchOob := by
  intro fuel
  induction fuel with
  | zero =>
      intro l a e h
      unfold makeUpcallF at h
      simp only [Except.error.injEq] at h
      subst h
      decide
  | succ fuel ih =>
      intro l a e h
      unfold makeUpcallF at h
      dsimp only at h
      repeat' split at h
      all_goals try exact Except.noConfusion h
      all_goals simp only [Except.error.injEq] at h
      all_goals subst h
      all_goals first
        | decide
        | exact ih _ _ _ (by assumption)

theorem LLog_commit_err {σ : Type} (appCommit : σ → Data → σ × Data)
    (l : LLog) (a : σ) (index : Nat) (e : Err)
    (h : LLog.commit appCommit l a index = .error e) : e ≠ .batchOob := by
  unfold LLog.commit at h
  dsimp only at h
  repeat' split at h
  all_goals try exact Except.noConfusion h
  all_goals try exact makeUpcallF_err appCommit _ _ _ _ h
  all_goals simp only [Except.error.injEq] at h
  all_goals subst h
  all_goals decide

theorem LLog_prepare_err (l : LLog) (index : Nat) (b : Block) (e : Err)
    (h : LLog.prepare l index b = .error e) : e ≠ .batchOob := by
  unfold LLog.prepare at h
  dsimp only at h
  repeat' split at h
  all_goals try exact Except.noConfusion h
  all_goals simp only [Except.error.injEq] at h
  all_goals subst h
  all_goals decide

theorem ct_check_err (t : CTable) (remote client_id request_number : Nat)
    (e : Err)
    (h : ClientTable.check t remote client_id request_number = .error e) :
    e = .fatal := by
  unfold ClientTable.check at h
  dsimp only at h
  repeat' split at h
  all_goals try exact Except.noConfusion h
  all_goals simp only [Except.error.injEq] at h
  all_goals exact h.symm

theorem cuLoop_frame_err {σ : Type} (appCommit : σ → Data → σ × Data) :
    ∀ (idxs : List Nat) (s : RState σ),
      (∀ s' effs, cuLoop appCommit s idxs = .ok (s', effs) →
        s'.batch = s.batch ∧ s'.batch_size = s.batch_size ∧
        s'.view_number = s.view_number ∧ s'.status = s.status ∧
        s'.n_replica = s.n_replica ∧ s'.replica_id = s.replica_id ∧
        s'.commit_number = s.commit_number) ∧
      (∀ e, cuLoop appCommit s idxs = .error e → e ≠ .batchOob) := by
  intro idxs
  induction idxs with
  | nil =>
      intro s
      constructor
      · intro s' effs h
        unfold cuLoop at h
        simp only [Except.ok.injEq, Prod.mk.injEq] at h
        rw [← h.1]
        exact ⟨rfl, rfl, rfl, rfl, rfl, rfl, rfl⟩
      · intro e h
        exact Except.noConfusion h
  | cons i rest ih =>
      intro s
      constructor
      · intro s' effs h
        unfold cuLoop at h
        split at h
        · exact Except.noConfusion h
        · dsimp only at h
          split at h
          · exact Except.noConfusion h
          · simp only [Except.ok.injEq, Prod.mk.injEq] at h
            obtain ⟨hs, _⟩ := h
            subst hs
            have hrec := ((ih _).1 _ _ (by assumption))
            simpa using hrec
      · intro e h
        unfold cuLoop at h
        split at h
        · simp only [Except.error.injEq] at h
          subst h
          exact LLog_commit_err appCommit _ _ _ _ (by assumption)
        · dsimp only at h
          split at h
          · simp only [Except.error.injEq] at h
            subst h
            exact (ih _).2 _ (by assumption)
          · exact Except.noConfusion h

theorem commitUpTo_frame_err {σ : Type} (appCommit : σ → Data → σ × Data)
    (s : RState σ) (target : Nat) :
    (∀ s' effs, commitUpTo appCommit s target = .ok (s', effs) →
      s'.batch = s.batch ∧ s'.batch_size = s.batch_size ∧
      s'.view_number = s.view_number ∧ s'.status = s.status ∧
      s'.n_replica = s.n_replica ∧ s'.replica_id = s.replica_id) ∧
    (∀ e, commitUpTo appCommit s target = .error e → e ≠ .batchOob) := by
  constructor
  · intro s' effs h
    unfold commitUpTo at h
    split at h
    · exact Except.noConfusion h
    · simp only [Except.ok.injEq, Prod.mk.injEq] at h
      obtain ⟨hs, _⟩ := h
      rw [← hs]
      have hrec := (cuLoop_frame_err appCommit _ s).1 _ _ (by assumption)
      obtain ⟨q1, q2, q3, q4, q5, q6, _⟩ := hrec
      exact ⟨q1, q2, q3, q4, q5, q6⟩
  · intro e h
    unfold commitUpTo at h
    split at h
    · simp only [Except.error.injEq] at h
      subst h
      exact (cuLoop_frame_err appCommit _ s).2 _ (by assumption)
    · exact Except.noConfusion h

/- Per-function facts feeding the step-level batch invariant and view
monotonicity: how each replica routine treats the batch, the batch size,
and the view number, and that none of them raises the batch-write
error. -/

theorem startViewChange_props {σ : Type} (s : RState σ) (v : Nat) :
    (∀ s' effs, startViewChange s v = .ok (s', effs) →
      s'.batch = s.batch ∧ s'.batch_size = s.batch_size ∧
      s'.view_number = v) ∧
    (∀ e, startViewChange s v = .error e → e = .fatal) := by
  constructor
  · intro s' effs h
    unfold startViewChange at h
    split at h
    · exact Except.noConfusion h
    · dsimp only at h
      simp only [Except.ok.injEq, Prod.mk.injEq] at h
      obtain ⟨hs, _⟩ := h
      rw [← hs]
      exact ⟨rfl, rfl, rfl⟩
  · intro e h
    unfold startViewChange at h
    split at h
    · simp only [Except.error.injEq] at h
      exact h.symm
    · dsimp only at h
      exact Except.noConfusion h

theorem enterView_props {σ : Type} (appCommit : σ → Data → σ × Data)
    (s : RState σ) (sv : StartViewMessage) :
    (∀ s' effs, enterView appCommit s sv = .ok (s', effs) →
      s'.batch = { s.batch with n_entry := 0 } ∧
      s'.batch_size = s.batch_size ∧ s'.view_number = sv.view_number) ∧
    (∀ e, enterView appCommit s sv = .error e → e ≠ .batchOob) := by
  constructor
  · intro s' effs h
    unfold enterView at h
    dsimp only at h
    split at h
    · exact Except.noConfusion h
    · split at h
      · have hq := (commitUpTo_frame_err appCommit _ _).1 _ _ h
        obtain ⟨q1, q2, q3, _⟩ := hq
        exact ⟨by rw [q1], by rw [q2], by rw [q3]⟩
      · simp only [Except.ok.injEq, Prod.mk.injEq] at h
        obtain ⟨hs, _⟩ := h
        rw [← hs]
        exact ⟨rfl, rfl, rfl⟩
  · intro e h
    unfold enterView at h
    dsimp only at h
    split at h
    · simp only [Except.error.injEq] at h
      subst h
      decide
    · split at h
      · exact (commitUpTo_frame_err appCommit _ _).2 _ h
      · exact Except.noConfusion h

theorem startView_props {σ : Type} (appCommit : σ → Data → σ × Data)
    (s : RState σ) (q : List (Int × DoViewChangeMessage)) :
    (∀ s' effs, startView appCommit s q = .ok (s', effs) →
      (s'.batch = s.batch ∨ s'.batch.n_entry = 0) ∧
      s'.batch_size = s.batch_size ∧ s'.view_number = s.view_number) ∧
    (∀ e, startView appCommit s q = .error e → e ≠ .batchOob) := by
  constructor
  · intro s' effs h
    unfold startView at h
    split at h
    · exact Except.noConfusion h
    · split at h
      · simp only [Except.ok.injEq, Prod.mk.injEq] at h
        obtain ⟨hs, _⟩ := h
        rw [← hs]
        exact ⟨Or.inl rfl, rfl, rfl⟩
      · dsimp only at h
        split at h
        · exact Except.noConfusion h
        · simp only [Except.ok.injEq, Prod.mk.injEq] at h
          obtain ⟨hs, _⟩ := h
          have hq := (enterView_props appCommit s _).1 _ _ (by assumption)
          rw [← hs]
          exact ⟨Or.inr (by rw [hq.1]), hq.2.1, hq.2.2⟩
  · intro e h
    unfold startView at h
    split at h
    · simp only [Except.error.injEq] at h
      subst h
      decide
    · split at h
      · exact Except.noConfusion h
      · dsimp only at h
        split at h
        · simp only [Except.error.injEq] at h
          subst h
          exact (enterView_props appCommit s _).2 _ (by assumption)
        · exact Except.noConfusion h

theorem sendDoViewChange_props {σ : Type}
    (appCommit : σ → Data → σ × Data) (s : RState σ) :
    (∀ s' effs, sendDoViewChange appCommit s = .ok (s', effs) →
      (s'.batch = s.batch ∨ s'.batch.n_entry = 0) ∧
      s'.batch_size = s.batch_size ∧ s'.view_number = s.view_number) ∧
    (∀ e, sendDoViewChange appCommit s = .error e → e ≠ .batchOob) := by
  constructor
  · intro s' effs h
    unfold sendDoViewChange at h
    dsimp only at h
    split at h
    · simp only [Except.ok.injEq, Prod.mk.injEq] at h
      obtain ⟨hs, _⟩ := h
      rw [← hs]
      exact ⟨Or.inl rfl, rfl, rfl⟩
    · split at h
      · have hq := (startView_props appCommit _ _).1 _ _ h
        obtain ⟨q1, q2, q3⟩ := hq
        refine ⟨?_, by rw [q2], by rw [q3]⟩
        rcases q1 with q1 | q1
        · exact Or.inl (by rw [q1])
        · exact Or.inr q1
      · simp only [Except.ok.injEq, Prod.mk.injEq] at h
        obtain ⟨hs, _⟩ := h
        rw [← hs]
        exact ⟨Or.inl rfl, rfl, rfl⟩
  · intro e h
    unfold sendDoViewChange at h
    dsimp only at h
    split at h
    · exact Except.noConfusion h
    · split at h
      · exact (startView_props appCommit _ _).2 _ h
      · exact Except.noConfusion h

theorem sendCommit_props {σ : Type} (s : RState σ) :
    (∀ s' effs, sendCommit s = .ok (s', effs) → s' = s) ∧
    (∀ e, sendCommit s = .error e → e = .fatal) := by
  constructor
  · intro s' effs h
    unfold sendCommit at h
    split at h
    · exact Except.noConfusion h
    · dsimp only at h
      simp only [Except.ok.injEq, Prod.mk.injEq] at h
      exact h.1.symm
  · intro e h
    unfold sendCommit at h
    split at h
    · simp only [Except.error.injEq] at h
      exact h.symm
    · dsimp only at h
      exact Except.noConfusion h

theorem closeBatch_props {σ : Type} (appCommit : σ → Data → σ × Data)
    (s : RState σ) :
    (∀ s' effs, closeBatch appCommit s = .ok (s', effs) →
      s'.batch.n_entry = 0 ∧ s'.batch_size = s.batch_size ∧
      s'.view_number = s.view_number) ∧
    (∀ e, closeBatch appCommit s = .error e → e ≠ .batchOob) := by
  constructor
  · intro s' effs h
    unfold closeBatch at h
    split at h
    · exact Except.noConfusion h
    · try dsimp only at h
      split at h
      · exact Except.noConfusion h
      · try dsimp only at h
        split at h
        · simp only [Except.ok.injEq, Prod.mk.injEq] at h
          obtain ⟨hs, _⟩ := h
          rw [← hs]
          exact ⟨rfl, rfl, rfl⟩
        · split at h
          · exact Except.noConfusion h
          · simp only [Except.ok.injEq, Prod.mk.injEq] at h
            obtain ⟨hs, _⟩ := h
            have hq := (commitUpTo_frame_err appCommit _ _).1 _ _
              (by assumption)
            obtain ⟨q1, q2, q3, _⟩ := hq
            rw [← hs]
            exact ⟨by rw [q1], by rw [q2], by rw [q3]⟩
  · intro e h
    unfold closeBatch at h
    split at h
    · simp only [Except.error.injEq] at h
      subst h
      decide
    · try dsimp only at h
      split at h
      · simp only [Except.error.injEq] at h
        subst h
        exact LLog_prepare_err _ _ _ _ (by assumption)
      · try dsimp only at h
        split at h
        · exact Except.noConfusion h
        · split at h
          · simp only [Except.error.injEq] at h
            subst h
            exact (commitUpTo_frame_err appCommit _ _).2 _ (by assumption)
          · exact Except.noConfusion h

theorem handlePrepareOk_props {σ : Type} (appCommit : σ → Data → σ × Data)
    (s : RState σ) (m : PrepareOkMessage) :
    (∀ s' effs, handlePrepareOk appCommit s m = .ok (s', effs) →
      s'.batch = s.batch ∧ s'.batch_size = s.batch_size ∧
      s'.view_number = s.view_number) ∧
    (∀ e, handlePrepareOk appCommit s m = .error e → e ≠ .batchOob) := by
  constructor
  · intro s' effs h
    unfold handlePrepareOk at h
    split at h
    · simp only [Except.ok.injEq, Prod.mk.injEq] at h
      obtain ⟨hs, _⟩ := h
      rw [← hs]
      exact ⟨rfl, rfl, rfl⟩
    · split at h
      · exact Except.noConfusion h
      · split at h
        · exact Except.noConfusion h
        · split at h
          · simp only [Except.ok.injEq, Prod.mk.injEq] at h
            obtain ⟨hs, _⟩ := h
            rw [← hs]
            exact ⟨rfl, rfl, rfl⟩
          · try dsimp only at h
            split at h
            · have hq := (commitUpTo_frame_err appCommit _ _).1 _ _ h
              obtain ⟨q1, q2, q3, _⟩ := hq
              exact ⟨by rw [q1], by rw [q2], by rw [q3]⟩
            · simp only [Except.ok.injEq, Prod.mk.injEq] at h
              obtain ⟨hs, _⟩ := h
              rw [← hs]
              exact ⟨rfl, rfl, rfl⟩
  · intro e h
    unfold handlePrepareOk at h
    split at h
    · exact Except.noConfusion h
    · split at h
      · simp only [Except.error.injEq] at h
        subst h
        decide
      · split at h
        · simp only [Except.error.injEq] at h
          subst h
          decide
        · split at h
          · exact Except.noConfusion h
          · try dsimp only at h
            split at h
            · exact (commitUpTo_frame_err appCommit _ _).2 _ h
            · exact Except.noConfusion h

theorem handleCommit_props {σ : Type} (appCommit : σ → Data → σ × Data)
    (s : RState σ) (m : CommitMessage) :
    (∀ s' effs, handleCommit appCommit s m = .ok (s', effs) →
      s'.batch = s.batch ∧ s'.batch_size = s.batch_size ∧
      s'.view_number = s.view_number) ∧
    (∀ e, handleCommit appCommit s m = .error e → e ≠ .batchOob) := by
  constructor
  · intro s' effs h
    unfold handleCommit at h
    split at h
    · simp only [Except.ok.injEq, Prod.mk.injEq] at h
      obtain ⟨hs, _⟩ := h
      rw [← hs]
      exact ⟨rfl, rfl, rfl⟩
    · split at h
      · exact Except.noConfusion h
      · split at h
        · have hq := (commitUpTo_frame_err appCommit _ _).1 _ _ h
          obtain ⟨q1, q2, q3, _⟩ := hq
          exact ⟨q1, q2, q3⟩
        · simp only [Except.ok.injEq, Prod.mk.injEq] at h
          obtain ⟨hs, _⟩ := h
          rw [← hs]
          exact ⟨rfl, rfl, rfl⟩
  · intro e h
    unfold handleCommit at h
    split at h
    · exact Except.noConfusion h
    · split at h
      · simp only [Except.error.injEq] at h
        subst h
        decide
      · split at h
        · exact (commitUpTo_frame_err appCommit _ _).2 _ h
        · exact Except.noConfusion h

theorem handlePrepare_props {σ : Type} (appCommit : σ → Data → σ × Data)
    (s : RState σ) (m : PrepareMessage) :
    (∀ s' effs, handlePrepare appCommit s m = .ok (s', effs) →
      s'.batch = s.batch ∧ s'.batch_size = s.batch_size ∧
      s'.view_number = s.view_number) ∧
    (∀ e, handlePrepare appCommit s m = .error e → e ≠ .batchOob) := by
  constructor
  · intro s' effs h
    unfold handlePrepare at h
    split at h
    · simp only [Except.ok.injEq, Prod.mk.injEq] at h
      obtain ⟨hs, _⟩ := h
      rw [← hs]
      exact ⟨rfl, rfl, rfl⟩
    · split at h
      · exact Except.noConfusion h
      · split at h
        · exact Except.noConfusion h
        · split at h
          · simp only [Except.ok.injEq, Prod.mk.injEq] at h
            obtain ⟨hs, _⟩ := h
            rw [← hs]
            exact ⟨rfl, rfl, rfl⟩
          · split at h
            · exact Except.noConfusion h
            · try dsimp only at h
              split at h
              · exact Except.noConfusion h
              · split at h
                · exact Except.noConfusion h
                · try dsimp only at h
                  split at h
                  · split at h
                    · exact Except.noConfusion h
                    · simp only [Except.ok.injEq, Prod.mk.injEq] at h
                      obtain ⟨hs, _⟩ := h
                      have hq := (commitUpTo_frame_err appCommit _ _).1 _ _
                        (by assumption)
                      obtain ⟨q1, q2, q3, _⟩ := hq
                      rw [← hs]
                      exact ⟨by rw [q1], by rw [q2], by rw [q3]⟩
                  · simp only [Except.ok.injEq, Prod.mk.injEq] at h
                    obtain ⟨hs, _⟩ := h
                    rw [← hs]
                    exact ⟨rfl, rfl, rfl⟩
  · intro e h
    unfold handlePrepare at h
    split at h
    · exact Except.noConfusion h
    · split at h
      · simp only [Except.error.injEq] at h
        subst h
        decide
      · split at h
        · simp only [Except.error.injEq] at h
          subst h
          decide
        · split at h
          · exact Except.noConfusion h
          · split at h
            · simp only [Except.error.injEq] at h
              subst h
              decide
            · try dsimp only at h
              split at h
              · simp only [Except.error.injEq] at h
                subst h
                exact LLog_prepare_err _ _ _ _ (by assumption)
              · split at h
                · simp only [Except.error.injEq] at h
                  subst h
                  decide
                · try dsimp only at h
                  split at h
                  · split at h
                    · simp only [Except.error.injEq] at h
                      subst h
                      exact (commitUpTo_frame_err appCommit _ _).2 _
                        (by assumption)
                    · exact Except.noConfusion h
                  · exact Except.noConfusion h

/- The tail shared by the `StartViewChange` handler after the optional
view bump: record the vote and maybe send `DoViewChange`. The lemma
relates the result to the intermediate state `s1`. -/
theorem svcRest_props {σ : Type} (appCommit : σ → Data → σ × Data)
    (s1 : RState σ) (m : StartViewChangeMessage) (effs1 : List Effect) :
    (∀ s' effs,
      (match (s1.start_view_change_set.addAndCheckForQuorum s1.view_number
          m.replica_id m).2 with
        | some _ =>
            match sendDoViewChange appCommit { s1 with
                start_view_change_set :=
                  (s1.start_view_change_set.addAndCheckForQuorum
                    s1.view_number m.replica_id m).1 } with
            | .error e => (.error e : Except Err (RState σ × List Effect))
            | .ok (s3, effs2) => .ok (s3, effs1 ++ effs2)
        | none => .ok ({ s1 with start_view_change_set :=
            (s1.start_view_change_set.addAndCheckForQuorum s1.view_number
              m.replica_id m).1 }, effs1)) = .ok (s', effs) →
      (s'.batch = s1.batch ∨ s'.batch.n_entry = 0) ∧
      s'.batch_size = s1.batch_size ∧ s'.view_number = s1.view_number) ∧
    (∀ e,
      (match (s1.start_view_change_set.addAndCheckForQuorum s1.view_number
          m.replica_id m).2 with
        | some _ =>
            match sendDoViewChange appCommit { s1 with
                start_view_change_set :=
                  (s1.start_view_change_set.addAndCheckForQuorum
                    s1.view_number m.replica_id m).1 } with
            | .error e => (.error e : Except Err (RState σ × List Effect))
            | .ok (s3, effs2) => .ok (s3, effs1 ++ effs2)
        | none => .ok ({ s1 with start_view_change_set :=
            (s1.start_view_change_set.addAndCheckForQuorum s1.view_number
              m.replica_id m).1 }, effs1)) = .error e →
      e ≠ .batchOob) := by
  constructor
  · intro s' effs h
    split at h
    · split at h
      · exact Except.noConfusion h
      · rename_i heq2
        simp only [Except.ok.injEq, Prod.mk.injEq] at h
        obtain ⟨hs, _⟩ := h
        have hq := (sendDoViewChange_props appCommit _).1 _ _ heq2
        try dsimp only at hq
        rw [← hs]
        exact ⟨hq.1, hq.2.1, hq.2.2⟩
    · simp only [Except.ok.injEq, Prod.mk.injEq] at h
      obtain ⟨hs, _⟩ := h
      rw [← hs]
      exact ⟨Or.inl rfl, rfl, rfl⟩
  · intro e h
    split at h
    · split at h
      · simp only [Except.error.injEq] at h
        subst h
        exact (sendDoViewChange_props appCommit _).2 _ (by assumption)
      · exact Except.noConfusion h
    · exact Except.noConfusion h

theorem handleStartViewChange_props {σ : Type}
    (appCommit : σ → Data → σ × Data) (s : RState σ)
    (m : StartViewChangeMessage) :
    (∀ s' effs, handleStartViewChange appCommit s m = .ok (s', effs) →
      (s'.batch = s.batch ∨ s'.batch.n_entry = 0) ∧
      s'.batch_size = s.batch_size ∧
      s.view_number ≤ s'.view_number) ∧
    (∀ e, handleStartViewChange appCommit s m = .error e →
      e ≠ .batchOob) := by
  constructor
  · intro s' effs h
    unfold handleStartViewChange at h
    split at h
    · simp only [Except.ok.injEq, Prod.mk.injEq] at h
      obtain ⟨hs, _⟩ := h
      rw [← hs]
      exact ⟨Or.inl rfl, rfl, le_refl _⟩
    · try dsimp only at h
      split at h
      · exact Except.noConfusion h
      · rename_i s1 effs1 heq1
        try dsimp only at h
        have h1 : s1.batch = s.batch ∧ s1.batch_size = s.batch_size ∧
            s.view_number ≤ s1.view_number := by
          by_cases hv : m.view_number > s.view_number
          · rw [if_pos hv] at heq1
            have hq := (startViewChange_props s m.view_number).1 _ _ heq1
            exact ⟨hq.1, hq.2.1, by rw [hq.2.2]; omega⟩
          · rw [if_neg hv] at heq1
            simp only [Except.ok.injEq, Prod.mk.injEq] at heq1
            obtain ⟨hs1, _⟩ := heq1
            rw [← hs1]
            exact ⟨rfl, rfl, le_refl _⟩
        have hr := (svcRest_props appCommit s1 m effs1).1 _ _ h
        refine ⟨?_, ?_, ?_⟩
        · rcases hr.1 with hb | hb
          · rw [hb, h1.1]
            exact Or.inl rfl
          · exact Or.inr hb
        · rw [hr.2.1, h1.2.1]
        · rw [hr.2.2]
          exact h1.2.2
  · intro e h
    unfold handleStartViewChange at h
    split at h
    · exact Except.noConfusion h
    · try dsimp only at h
      split at h
      · rename_i e1 heq1
        simp only [Except.error.injEq] at h
        subst h
        have he1 : e1 = .fatal := by
          by_cases hv : m.view_number > s.view_number
          · rw [if_pos hv] at heq1
            exact (startViewChange_props s m.view_number).2 _ heq1
          · rw [if_neg hv] at heq1
            exact Except.noConfusion heq1
        rw [he1]
        decide
      · rename_i s1 effs1 heq1
        try dsimp only at h
        exact (svcRest_props appCommit s1 m effs1).2 _ h

/- The tail shared by the `DoViewChange` handler after the optional view
bump. -/
theorem dvcRest_props {σ : Type} (appCommit : σ → Data → σ × Data)
    (s1 : RState σ) (m : DoViewChangeMessage) (effs1 : List Effect) :
    (∀ s' effs,
      (if ¬s1.isPrimary then (.error .fatal :
          Except Err (RState σ × List Effect))
        else if s1.status ≠ .viewChange then .ok (s1, effs1)
        else
          match (s1.do_view_change_set.addAndCheckForQuorum s1.view_number
              m.replica_id m).2 with
          | some q =>
              match startView appCommit { s1 with do_view_change_set :=
                  (s1.do_view_change_set.addAndCheckForQuorum s1.view_number
                    m.replica_id m).1 } q with
              | .error e => .error e
              | .ok (s3, effs2) => .ok (s3, effs1 ++ effs2)
          | none => .ok ({ s1 with do_view_change_set :=
              (s1.do_view_change_set.addAndCheckForQuorum s1.view_number
                m.replica_id m).1 }, effs1)) = .ok (s', effs) →
      (s'.batch = s1.batch ∨ s'.batch.n_entry = 0) ∧
      s'.batch_size = s1.batch_size ∧ s'.view_number = s1.view_number) ∧
    (∀ e,
      (if ¬s1.isPrimary then (.error .fatal :
          Except Err (RState σ × List Effect))
        else if s1.status ≠ .viewChange then .ok (s1, effs1)
        else
          match (s1.do_view_change_set.addAndCheckForQuorum s1.view_number
              m.replica_id m).2 with
          | some q =>
              match startView appCommit { s1 with do_view_change_set :=
                  (s1.do_view_change_set.addAndCheckForQuorum s1.view_number
                    m.replica_id m).1 } q with
              | .error e => .error e
              | .ok (s3, effs2) => .ok (s3, effs1 ++ effs2)
          | none => .ok ({ s1 with do_view_change_set :=
              (s1.do_view_change_set.addAndCheckForQuorum s1.view_number
                m.replica_id m).1 }, effs1)) = .error e →
      e ≠ .batchOob) := by
  constructor
  · intro s' effs h
    split at h
    · exact Except.noConfusion h
    · split at h
      · simp only [Except.ok.injEq, Prod.mk.injEq] at h
        obtain ⟨hs, _⟩ := h
        rw [← hs]
        exact ⟨Or.inl rfl, rfl, rfl⟩
      · split at h
        · split at h
          · exact Except.noConfusion h
          · rename_i heq2
            simp only [Except.ok.injEq, Prod.mk.injEq] at h
            obtain ⟨hs, _⟩ := h
            have hq := (startView_props appCommit _ _).1 _ _ heq2
            try dsimp only at hq
            rw [← hs]
            exact ⟨hq.1, hq.2.1, hq.2.2⟩
        · simp only [Except.ok.injEq, Prod.mk.injEq] at h
          obtain ⟨hs, _⟩ := h
          rw [← hs]
          exact ⟨Or.inl rfl, rfl, rfl⟩
  · intro e h
    split at h
    · simp only [Except.error.injEq] at h
      subst h
      decide
    · split at h
      · exact Except.noConfusion h
      · split at h
        · split at h
          · simp only [Except.error.injEq] at h
            subst h
            exact (startView_props appCommit _ _).2 _ (by assumption)
          · exact Except.noConfusion h
        · exact Except.noConfusion h

theorem handleDoViewChange_props {σ : Type}
    (appCommit : σ → Data → σ × Data) (s : RState σ)
    (m : DoViewChangeMessage) :
    (∀ s' effs, handleDoViewChange appCommit s m = .ok (s', effs) →
      (s'.batch = s.batch ∨ s'.batch.n_entry = 0) ∧
      s'.batch_size = s.batch_size ∧
      s.view_number ≤ s'.view_number) ∧
    (∀ e, handleDoViewChange appCommit s m = .error e →
      e ≠ .batchOob) := by
  constructor
  · intro s' effs h
    unfold handleDoViewChange at h
    split at h
    · simp only [Except.ok.injEq, Prod.mk.injEq] at h
      obtain ⟨hs, _⟩ := h
      rw [← hs]
      exact ⟨Or.inl rfl, rfl, le_refl _⟩
    · try dsimp only at h
      split at h
      · exact Except.noConfusion h
      · rename_i s1 effs1 heq1
        try dsimp only at h
        have h1 : s1.batch = s.batch ∧ s1.batch_size = s.batch_size ∧
            s.view_number ≤ s1.view_number := by
          by_cases hv : m.view_number > s.view_number
          · rw [if_pos hv] at heq1
            have hq := (startViewChange_props s m.view_number).1 _ _ heq1
            exact ⟨hq.1, hq.2.1, by rw [hq.2.2]; omega⟩
          · rw [if_neg hv] at heq1
            simp only [Except.ok.injEq, Prod.mk.injEq] at heq1
            obtain ⟨hs1, _⟩ := heq1
            rw [← hs1]
            exact ⟨rfl, rfl, le_refl _⟩
        have hr := (dvcRest_props appCommit s1 m effs1).1 _ _ h
        refine ⟨?_, ?_, ?_⟩
        · rcases hr.1 with hb | hb
          · rw [hb, h1.1]
            exact Or.inl rfl
          · exact Or.inr hb
        · rw [hr.2.1, h1.2.1]
        · rw [hr.2.2]
          exact h1.2.2
  · intro e h
    unfold handleDoViewChange at h
    split at h
    · exact Except.noConfusion h
    · try dsimp only at h
      split at h
      · rename_i e1 heq1
        simp only [Except.error.injEq] at h
        subst h
        have he1 : e1 = .fatal := by
          by_cases hv : m.view_number > s.view_number
          · rw [if_pos hv] at heq1
            exact (startViewChange_props s m.view_number).2 _ heq1
          · rw [if_neg hv] at heq1
            exact Except.noConfusion heq1
        rw [he1]
        decide
      · rename_i s1 effs1 heq1
        try dsimp only at h
        exact (dvcRest_props appCommit s1 m effs1).2 _ h

theorem handleStartView_props {σ : Type}
    (appCommit : σ → Data → σ × Data) (s : RState σ)
    (m : StartViewMessage) :
    (∀ s' effs, handleStartView appCommit s m = .ok (s', effs) →
      (s'.batch = s.batch ∨ s'.batch.n_entry = 0) ∧
      s'.batch_size = s.batch_size ∧
      s.view_number ≤ s'.view_number) ∧
    (∀ e, handleStartView appCommit s m = .error e → e ≠ .batchOob) := by
  constructor
  · intro s' effs h
    unfold handleStartView at h
    split at h
    · simp only [Except.ok.injEq, Prod.mk.injEq] at h
      obtain ⟨hs, _⟩ := h
      rw [← hs]
      exact ⟨Or.inl rfl, rfl, le_refl _⟩
    · rename_i hge
      split at h
      · simp only [Except.ok.injEq, Prod.mk.injEq] at h
        obtain ⟨hs, _⟩ := h
        rw [← hs]
        exact ⟨Or.inl rfl, rfl, le_refl _⟩
      · have hq := (enterView_props appCommit s m).1 _ _ h
        refine ⟨Or.inr (by rw [hq.1]), hq.2.1, ?_⟩
        rw [hq.2.2]
        omega
  · intro e h
    unfold handleStartView at h
    split at h
    · exact Except.noConfusion h
    · split at h
      · exact Except.noConfusion h
      · exact (enterView_props appCommit s m).2 _ h

theorem handleRequest_props {σ : Type}
    (appCommit : σ → Data → σ × Data) (s : RState σ) (remote : Nat)
    (m : RequestMessage) :
    (batchInv s → ∀ s' effs,
      handleRequest appCommit s remote m = .ok (s', effs) →
      batchInv s' ∧ s'.view_number = s.view_number) ∧
    (batchInv s → ∀ e,
      handleRequest appCommit s remote m = .error e → e ≠ .batchOob) := by
  constructor
  · intro hinv s' effs h
    unfold handleRequest at h
    split at h
    · simp only [Except.ok.injEq, Prod.mk.injEq] at h
      obtain ⟨hs, _⟩ := h
      rw [← hs]
      exact ⟨hinv, rfl⟩
    · split at h
      · exact Except.noConfusion h
      · rename_i t1 res heq
        try dsimp only at h
        split at h
        · simp only [Except.ok.injEq, Prod.mk.injEq] at h
          obtain ⟨hs, _⟩ := h
          rw [← hs]
          exact ⟨hinv, rfl⟩
        · simp only [Except.ok.injEq, Prod.mk.injEq] at h
          obtain ⟨hs, _⟩ := h
          rw [← hs]
          exact ⟨hinv, rfl⟩
        · split at h
          · split at h
            · split at h
              · have hq := (closeBatch_props appCommit _).1 _ _ h
                obtain ⟨q1, q2, q3⟩ := hq
                have hbs : s'.batch_size = s.batch_size := q2
                refine ⟨?_, q3⟩
                unfold batchInv at hinv ⊢
                refine ⟨?_, ?_, ?_⟩
                · rw [q1]
                · rw [q1, hbs]
                  omega
                · rw [hbs]
                  exact hinv.2.2
              · rename_i hlt
                try dsimp only at hlt
                simp only [Except.ok.injEq, Prod.mk.injEq] at h
                obtain ⟨hs, _⟩ := h
                rw [← hs]
                refine ⟨?_, rfl⟩
                unfold batchInv at hinv ⊢
                refine ⟨?_, ?_, ?_⟩
                · simp only
                  omega
                · simp only
                  omega
                · exact hinv.2.2
            · exact Except.noConfusion h
          · simp only [Except.ok.injEq, Prod.mk.injEq] at h
            obtain ⟨hs, _⟩ := h
            rw [← hs]
            exact ⟨hinv, rfl⟩
  · intro hinv e h
    unfold handleRequest at h
    split at h
    · exact Except.noConfusion h
    · split at h
      · rename_i e1 heq1
        simp only [Except.error.injEq] at h
        subst h
        rw [ct_check_err _ _ _ _ _ heq1]
        decide
      · rename_i t1 res heq
        try dsimp only at h
        split at h
        · exact Except.noConfusion h
        · exact Except.noConfusion h
        · split at h
          · split at h
            · split at h
              · exact (closeBatch_props appCommit _).2 _ h
              · exact Except.noConfusion h
            · rename_i hg
              exfalso
              apply hg
              unfold batchInv blockSize at hinv
              try dsimp only
              constructor
              · exact hinv.1
              · unfold blockSize
                omega
          · exact Except.noConfusion h

/- The `Request` handler never changes the view number. -/
theorem handleRequest_view {σ : Type} (appCommit : σ → Data → σ × Data)
    (s : RState σ) (remote : Nat) (m : RequestMessage) :
    ∀ s' effs, handleRequest appCommit s remote m = .ok (s', effs) →
      s'.view_number = s.view_number := by
  intro s' effs h
  unfold handleRequest at h
  split at h
  · simp only [Except.ok.injEq, Prod.mk.injEq] at h
    obtain ⟨hs, _⟩ := h
    rw [← hs]
  · split at h
    · exact Except.noConfusion h
    · rename_i t1 res heq
      try dsimp only at h
      split at h
      · simp only [Except.ok.injEq, Prod.mk.injEq] at h
        obtain ⟨hs, _⟩ := h
        rw [← hs]
      · simp only [Except.ok.injEq, Prod.mk.injEq] at h
        obtain ⟨hs, _⟩ := h
        rw [← hs]
      · split at h
        · split at h
          · split at h
            · exact ((closeBatch_props appCommit _).1 _ _ h).2.2
            · simp only [Except.ok.injEq, Prod.mk.injEq] at h
              obtain ⟨hs, _⟩ := h
              rw [← hs]
          · exact Except.noConfusion h
        · simp only [Except.ok.injEq, Prod.mk.injEq] at h
          obtain ⟨hs, _⟩ := h
          rw [← hs]

/-- Claim C9, counterexample: the constructor accepts a batch size of 0
(its only guard is `batch_size > block_size`), and the resulting initial
state already violates `0 ≤ batch.n_entry < batch_size`: the entry
count 0 is not below the batch size 0. -/
theorem vr_batch_invariant_cex :
    mkReplica 1 3 1 0 (⟨[], [], 0, 0, true⟩ : LLog) () =
      .ok zeroBatchReplica ∧
    ¬(zeroBatchReplica.batch.n_entry < zeroBatchReplica.batch_size) :=
  ⟨rfl, by decide⟩

/-- Claim C9 (amended): for a replica constructed with a positive batch
size, `0 ≤ batch.n_entry < batch_size ≤ block_size` holds initially
(the constructor aborts when the batch size exceeds the block size) and
is preserved by every handler and timer event, and under it the write
`batch.entry_buffer[batch.n_entry]` in the `Request` handler is always
within the bounds of the 50-entry buffer — the batch-bounds error is
unreachable. -/
theorem vr_batch_invariant {σ : Type} (appCommit : σ → Data → σ × Data) :
    (∀ (n_fault n_replica : Nat) (replica_id batch_size : Int)
      (l : LLog) (a : σ) (s0 : RState σ), 1 ≤ batch_size →
      mkReplica n_fault n_replica replica_id batch_size l a = .ok s0 →
      batchInv s0) ∧
    (∀ (s : RState σ) (e : REvent) (s' : RState σ) (effs : List Effect),
      batchInv s → step appCommit s e = .ok (s', effs) → batchInv s') ∧
    (∀ (s : RState σ) (e : REvent), batchInv s →
      step appCommit s e ≠ .error .batchOob) := by
  have hOf : ∀ (s s' : RState σ),
      (s'.batch = s.batch ∨ s'.batch.n_entry = 0) →
      s'.batch_size = s.batch_size → batchInv s → batchInv s' := by
    intro s s' hb hbs hinv
    unfold batchInv at hinv ⊢
    rcases hb with hb | hb
    · rw [hb, hbs]
      exact hinv
    · rw [hb, hbs]
      refine ⟨le_refl _, ?_, hinv.2.2⟩
      omega
  refine ⟨?_, ?_, ?_⟩
  · intro n_fault n_replica replica_id batch_size l a s0 hpos h
    unfold mkReplica at h
    split at h
    · exact Except.noConfusion h
    · rename_i hble
      simp only [Except.ok.injEq] at h
      rw [← h]
      unfold batchInv
      refine ⟨le_refl _, by simpa using hpos, ?_⟩
      simp only
      omega
  · intro s e s' effs hinv hstep
    cases e with
    | request remote m =>
        exact ((handleRequest_props appCommit s remote m).1 hinv _ _
          hstep).1
    | prepare m =>
        have hq := (handlePrepare_props appCommit s m).1 _ _ hstep
        exact hOf s s' (Or.inl hq.1) hq.2.1 hinv
    | prepareOk m =>
        have hq := (handlePrepareOk_props appCommit s m).1 _ _ hstep
        exact hOf s s' (Or.inl hq.1) hq.2.1 hinv
    | commit m =>
        have hq := (handleCommit_props appCommit s m).1 _ _ hstep
        exact hOf s s' (Or.inl hq.1) hq.2.1 hinv
    | startViewChange m =>
        have hq := (handleStartViewChange_props appCommit s m).1 _ _ hstep
        exact hOf s s' hq.1 hq.2.1 hinv
    | doViewChange m =>
        have hq := (handleDoViewChange_props appCommit s m).1 _ _ hstep
        exact hOf s s' hq.1 hq.2.1 hinv
    | startView m =>
        have hq := (handleStartView_props appCommit s m).1 _ _ hstep
        exact hOf s s' hq.1 hq.2.1 hinv
    | idleCommitTimeout =>
        have hq := (sendCommit_props s).1 _ _ hstep
        rw [hq]
        exact hinv
    | viewChangeTimeout =>
        have hq := (startViewChange_props s _).1 _ _ hstep
        exact hOf s s' (Or.inl hq.1) hq.2.1 hinv
  · intro s e hinv hstep
    cases e with
    | request remote m =>
        exact (handleRequest_props appCommit s remote m).2 hinv _ hstep rfl
    | prepare m =>
        exact (handlePrepare_props appCommit s m).2 _ hstep rfl
    | prepareOk m =>
        exact (handlePrepareOk_props appCommit s m).2 _ hstep rfl
    | commit m =>
        exact (handleCommit_props appCommit s m).2 _ hstep rfl
    | startViewChange m =>
        exact (handleStartViewChange_props appCommit s m).2 _ hstep rfl
    | doViewChange m =>
        exact (handleDoViewChange_props appCommit s m).2 _ hstep rfl
    | startView m =>
        exact (handleStartView_props appCommit s m).2 _ hstep rfl
    | idleCommitTimeout =>
        have := (sendCommit_props s).2 _ hstep
        exact absurd this (by decide)
    | viewChangeTimeout =>
        have := (startViewChange_props s _).2 _ hstep
        exact absurd this (by decide)

/-- Witness for C9 (amended): constructing replica 1 of 3 with batch
size 1 satisfies the batch invariant, a `Commit` message event at
`freshBackup` completes and preserves it, and that event cannot raise
the batch-bounds error. -/
theorem vr_batch_invariant_witness :
    batchInv freshBackup ∧
    step idApp freshBackup (.commit ⟨0, 0⟩) = .ok (freshBackup, []) ∧
    step idApp freshBackup (.commit ⟨0, 0⟩) ≠ .error .batchOob := by
  refine ⟨?_, rfl, ?_⟩
  · exact (vr_batch_invariant idApp).1 1 3 1 1 ⟨[], [], 0, 0, true⟩ ()
      freshBackup (by decide) rfl
  · exact (vr_batch_invariant idApp).2.2 freshBackup (.commit ⟨0, 0⟩)
      (by decide)

/-- Claim C4, counterexample: the view-change timeout at a backup whose
`uint8_t` view number is 255 sets the view number to `(255 + 1) % 256 =
0` — the timeout leaves the view number smaller than it was, so the
view number is not non-decreasing over the replica's lifetime. -/
theorem vr_view_monotonic_cex :
    step idApp wrapBackup .viewChangeTimeout =
      .ok ({ wrapBackup with status := .viewChange, view_number := 0 },
        [.sendToAll (.startViewChange ⟨0, 1⟩)]) ∧
    (0 : Nat) < 255 :=
  ⟨rfl, by decide⟩

/-- Claim C4 (amended): across every message handler and timer callback
that completes, the replica's view number never decreases, except that
the view-change timeout assigns `(view_number + 1) % 256` (the `int`
sum narrowed to the `uint8_t` `ViewNumber`), which is smaller only at
view number 255, where it wraps to 0. -/
theorem vr_view_monotonic {σ : Type} (appCommit : σ → Data → σ × Data)
    (s : RState σ) (e : REvent) (s' : RState σ) (effs : List Effect)
    (hview : s.view_number < U8)
    (hstep : step appCommit s e = .ok (s', effs)) :
    s.view_number ≤ s'.view_number ∨
      (e = .viewChangeTimeout ∧ s.view_number = 255 ∧
        s'.view_number = 0) := by
  cases e with
  | request remote m =>
      exact Or.inl (le_of_eq
        (handleRequest_view appCommit s remote m _ _ hstep).symm)
  | prepare m =>
      exact Or.inl (le_of_eq
        ((handlePrepare_props appCommit s m).1 _ _ hstep).2.2.symm)
  | prepareOk m =>
      exact Or.inl (le_of_eq
        ((handlePrepareOk_props appCommit s m).1 _ _ hstep).2.2.symm)
  | commit m =>
      exact Or.inl (le_of_eq
        ((handleCommit_props appCommit s m).1 _ _ hstep).2.2.symm)
  | startViewChange m =>
      exact Or.inl ((handleStartViewChange_props appCommit s m).1 _ _
        hstep).2.2
  | doViewChange m =>
      exact Or.inl ((handleDoViewChange_props appCommit s m).1 _ _
        hstep).2.2
  | startView m =>
      exact Or.inl ((handleStartView_props appCommit s m).1 _ _
        hstep).2.2
  | idleCommitTimeout =>
      have hq := (sendCommit_props s).1 _ _ hstep
      rw [hq]
      exact Or.inl (le_refl _)
  | viewChangeTimeout =>
      have hq := (startViewChange_props s _).1 _ _ hstep
      by_cases hv : s.view_number = 255
      · refine Or.inr ⟨rfl, hv, ?_⟩
        rw [hq.2.2, hv]
        decide
      · refine Or.inl ?_
        rw [hq.2.2]
        unfold U8 at hview ⊢
        rw [Nat.mod_eq_of_lt (by omega)]
        omega

/-- Witness for C4 (amended): a `StartViewChange` message for the
current view 0 at the backup `freshBackup` completes (recording the vote
and sending a `DoViewChange` to the primary) and does not decrease the
view number. -/
theorem vr_view_monotonic_witness :
    freshBackup.view_number ≤
      ({ freshBackup with
        start_view_change_set := ⟨1, [(0, [(2, ⟨0, 2⟩)])]⟩ } :
          RState Unit).view_number ∨
      (REvent.startViewChange ⟨0, 2⟩ = REvent.viewChangeTimeout ∧
        freshBackup.view_number = 255 ∧
        ({ freshBackup with
          start_view_change_set := ⟨1, [(0, [(2, ⟨0, 2⟩)])]⟩ } :
            RState Unit).view_number = 0) :=
  vr_view_monotonic idApp freshBackup (.startViewChange ⟨0, 2⟩)
    { freshBackup with
      start_view_change_set := ⟨1, [(0, [(2, ⟨0, 2⟩)])]⟩ }
    [.sendToReplica 0 (.doViewChange ⟨0, 0, 0, 0, 1⟩)] (by decide) rfl

end Oskr
